import Mathlib

/-!
Verification of the synthetic limit-order-book market simulator
(`Market_Simulation/market_simulation.py`).

The order book is embedded shallowly: Python dicts become association
lists (first binding wins, assignment replaces the first binding,
deletion removes it), prices become rationals (the script compares and
averages prices but the claims under study do not depend on binary
floating-point rounding), volumes and the market-maker inventory become
integers (they are ints in the script), and the only fallible paths
(`KeyError` on a registry or level lookup, `ValueError` from
`list.remove`) are modelled by `Option`, with `none` meaning the Python
code would raise.  Randomized choices (which orders a cancellation pass
removes, which events a tick generates) are universally quantified
oracles, covering every outcome the random number generator could
produce.
-/

set_option linter.unusedVariables false

namespace MarketSim

/-- Side of an order; the script passes the strings 'buy' and 'sell'. -/
inductive Side where
  | buy
  | sell
deriving DecidableEq

/-- The opposite side. -/
def opp : Side → Side
  | .buy => .sell
  | .sell => .buy

/-- A limit order as built by `LimitOrder.__init__` (lines 46-68): the
constructor stores side, price, volume and start tick, sets `end_tick`
to `None` and `mm_tag` to `False`, and assigns a fresh id. -/
structure LimitOrder where
  id : Nat
  side : Side
  price : ℚ
  volume : Int
  start_tick : Int
  end_tick : Option Int
  mm_tag : Bool
deriving DecidableEq

/-- Association-list read, modelling a Python dict lookup `d[k]`. -/
def alookup {α β : Type} [DecidableEq α] (k : α) : List (α × β) → Option β
  | [] => none
  | (k', v) :: l => if k' = k then some v else alookup k l

/-- Python dict assignment `d[k] = v`: replace the binding if the key is
present, otherwise append a new binding at the end. -/
def aset {α β : Type} [DecidableEq α] (k : α) (v : β) : List (α × β) → List (α × β)
  | [] => [(k, v)]
  | (k', v') :: l => if k' = k then (k', v) :: l else (k', v') :: aset k v l

/-- Python `del d[k]`: drop the first binding of the key. -/
def adel {α β : Type} [DecidableEq α] (k : α) : List (α × β) → List (α × β)
  | [] => []
  | (k', v') :: l => if k' = k then l else (k', v') :: adel k l

/-- Python `list.remove(x)`: drop the first occurrence of an element. -/
def lrem {α : Type} [DecidableEq α] (x : α) : List α → List α
  | [] => []
  | y :: l => if y = x then l else y :: lrem x l

/-- One side of the book: the dict `price -> FIFO queue of order ids`
(`OrderBook.bids` / `OrderBook.asks`, lines 79-80). -/
abbrev SideBook := List (ℚ × List Nat)

/-- The registry `OrderBook.orders` (line 81): `order id -> order`. -/
abbrev Registry := List (Nat × LimitOrder)

/-- The order book state (`OrderBook.__init__`, lines 70-81). -/
structure OrderBook where
  bids : SideBook
  asks : SideBook
  orders : Registry
deriving DecidableEq

/-- A freshly constructed book: all three dicts empty. -/
def OrderBook.empty : OrderBook := { bids := [], asks := [], orders := [] }

/-- The side's price-level dict, as selected by `order.side == 'buy'`. -/
def sideBook (st : OrderBook) : Side → SideBook
  | .buy => st.bids
  | .sell => st.asks

/-- Keys of one side of the book (the price levels present). -/
def keys (b : SideBook) : List ℚ := b.map Prod.fst

/-- All order ids resting in one side of the book, level by level. -/
def sideIds (b : SideBook) : List Nat := (b.map Prod.snd).flatten

/-- The `book.setdefault(order.price, []).append(order.id)` step of
`add_limit` (line 93): append the id at the back of the price's queue,
creating the level if absent. -/
def pushLevel (b : SideBook) (p : ℚ) (oid : Nat) : SideBook :=
  match alookup p b with
  | some q => aset p (q ++ [oid]) b
  | none => b ++ [(p, [oid])]

/-- `OrderBook.add_limit` (lines 83-94): insert into the side's
price-level queue and the registry.  There is no validation of any
kind in the source. -/
def add_limit (st : OrderBook) (o : LimitOrder) : OrderBook :=
  match o.side with
  | .buy => { st with bids := pushLevel st.bids o.price o.id, orders := aset o.id o st.orders }
  | .sell => { st with asks := pushLevel st.asks o.price o.id, orders := aset o.id o st.orders }

/-- `OrderBook.best_bid` (lines 96-103): `max(self.bids) if self.bids else None`. -/
def best_bid (st : OrderBook) : Option ℚ :=
  match st.bids with
  | [] => none
  | (p, _) :: l => some ((keys l).foldl max p)

/-- `OrderBook.best_ask` (lines 105-112): `min(self.asks) if self.asks else None`. -/
def best_ask (st : OrderBook) : Option ℚ :=
  match st.asks with
  | [] => none
  | (p, _) :: l => some ((keys l).foldl min p)

/-- `price = min(book) if asc else max(book)` (line 131), on a non-empty
side (the value on an empty side is never used). -/
def bestKey (b : SideBook) (asc : Bool) : ℚ :=
  match b with
  | [] => 0
  | (p, _) :: l => if asc then (keys l).foldl min p else (keys l).foldl max p

/-- The inner `while ids and vol>0` loop of `OrderBook._consume`
(lines 133-143): walk the FIFO queue of one price level, taking
`min(vol, order.volume)` from the front order each step; a fully
filled order is popped from the queue and deleted from the registry
(the assignment of its `end_tick` is invisible once it leaves the
registry), a partially filled order stays at the front with its volume
reduced.  Returns (registry, queue, filled, remaining volume). -/
def consumeLevel (reg : Registry) (ids : List Nat) (vol : Int) (t : Int) :
    Option (Registry × List Nat × Int × Int) :=
  match ids with
  | [] => some (reg, [], 0, vol)
  | oid :: rest =>
    if 0 < vol then
      match alookup oid reg with
      | none => none
      | some o =>
        let take := min vol o.volume
        if o.volume - take = 0 then
          match consumeLevel (adel oid reg) rest (vol - take) t with
          | none => none
          | some (reg', ids', f, vol') => some (reg', ids', f + take, vol')
        else
          some (aset oid { o with volume := o.volume - take } reg, oid :: rest, take, vol - take)
    else some (reg, oid :: rest, 0, vol)

/-- A key picked from a non-empty side is one of the side's keys. -/
theorem foldl_minmax_mem (f : ℚ → ℚ → ℚ) (hf : ∀ a b, f a b = a ∨ f a b = b) :
    ∀ (l : List ℚ) (a : ℚ), l.foldl f a = a ∨ l.foldl f a ∈ l := by
  intro l
  induction l with
  | nil => intro a; exact Or.inl rfl
  | cons x xs ih =>
    intro a
    have hstep : List.foldl f a (x :: xs) = List.foldl f (f a x) xs := rfl
    rw [hstep]
    rcases ih (f a x) with h | h
    · rw [h]
      rcases hf a x with h' | h'
      · exact Or.inl h'
      · exact Or.inr (by rw [h']; exact List.mem_cons_self x xs)
    · exact Or.inr (List.mem_cons_of_mem x h)

theorem bestKey_mem (e : ℚ × List Nat) (l : SideBook) (asc : Bool) :
    bestKey (e :: l) asc ∈ keys (e :: l) := by
  obtain ⟨p, q⟩ := e
  have hkeys : keys ((p, q) :: l) = p :: keys l := rfl
  cases asc with
  | true =>
    have hb : bestKey ((p, q) :: l) true = (keys l).foldl min p := rfl
    rw [hkeys, hb]
    rcases foldl_minmax_mem min (fun a b => min_choice a b) (keys l) p with h | h
    · rw [h]; exact List.mem_cons_self _ _
    · exact List.mem_cons_of_mem _ h
  | false =>
    have hb : bestKey ((p, q) :: l) false = (keys l).foldl max p := rfl
    rw [hkeys, hb]
    rcases foldl_minmax_mem max (fun a b => max_choice a b) (keys l) p with h | h
    · rw [h]; exact List.mem_cons_self _ _
    · exact List.mem_cons_of_mem _ h

/-- Deleting a present key strictly shrinks an association list. -/
theorem length_adel_lt {α β : Type} [DecidableEq α] (k : α) :
    ∀ l : List (α × β), k ∈ l.map Prod.fst → (adel k l).length < l.length := by
  intro l
  induction l with
  | nil => intro h; simp at h
  | cons e l ih =>
    intro h
    obtain ⟨k', v'⟩ := e
    by_cases hk : k' = k
    · simp [adel, hk]
    · have hmem : k ∈ l.map Prod.fst := by
        simp only [List.map_cons] at h
        rcases List.mem_cons.mp h with h' | h'
        · exact absurd h'.symm hk
        · exact h'
      simpa [adel, hk] using Nat.succ_lt_succ (ih hmem)

/-- The outer `while vol>0 and book` loop of `OrderBook._consume`
(lines 129-145): repeatedly pick the best remaining price level
(lowest if `asc`, highest otherwise), run the inner loop on it, delete
the level once its queue is empty, and stop when the requested volume
is exhausted or the side is empty.  Returns (registry, side, filled). -/
def consume (reg : Registry) (book : SideBook) (vol : Int) (asc : Bool) (t : Int) :
    Option (Registry × SideBook × Int) :=
  if 0 < vol then
    match book with
    | [] => some (reg, [], 0)
    | e :: l =>
      let price := bestKey (e :: l) asc
      match alookup price (e :: l) with
      | none => none
      | some ids =>
        match consumeLevel reg ids vol t with
        | none => none
        | some (reg₁, ids₁, f₁, vol₁) =>
          if ids₁ = [] then
            if 0 < vol₁ then
              match consume reg₁ (adel price (e :: l)) vol₁ asc t with
              | none => none
              | some (reg₂, book₂, f₂) => some (reg₂, book₂, f₁ + f₂)
            else some (reg₁, adel price (e :: l), f₁)
          else some (reg₁, aset price ids₁ (e :: l), f₁)
  else some (reg, book, 0)
termination_by book.length
decreasing_by
  simp_wf
  exact length_adel_lt _ _ (bestKey_mem e l asc)

/-- `OrderBook.match_market` (lines 147-161): a buy market order
consumes the asks ascending, a sell consumes the bids descending. -/
def match_market (st : OrderBook) (side : Side) (vol : Int) (t : Int) :
    Option (OrderBook × Int) :=
  match side with
  | .buy =>
    match consume st.orders st.asks vol true t with
    | none => none
    | some (reg, book, f) => some ({ st with orders := reg, asks := book }, f)
  | .sell =>
    match consume st.orders st.bids vol false t with
    | none => none
    | some (reg, book, f) => some ({ st with orders := reg, bids := book }, f)

/-- Removal of one active order, the loop body shared by
`cancel_random` (lines 175-181) and `remove_by_flag` (lines 197-203):
`book[order.price].remove(oid)`, delete the level if its queue became
empty, and delete the registry entry (the removed object's `end_tick`
is set just before it leaves the registry, so it is no longer visible
through the book). -/
def removeOne (st : OrderBook) (oid : Nat) (o : LimitOrder) : Option OrderBook :=
  match alookup o.price (sideBook st o.side) with
  | none => none
  | some q =>
    if oid ∈ q then
      let q' := lrem oid q
      let b' := if q' = [] then adel o.price (sideBook st o.side)
                else aset o.price q' (sideBook st o.side)
      match o.side with
      | .buy => some { st with bids := b', orders := adel oid st.orders }
      | .sell => some { st with asks := b', orders := adel oid st.orders }
    else none

/-- The `for oid,order in list(self.orders.items())` loop of both
removal methods: iterate over a snapshot of the registry, removing the
selected orders. -/
def removeList (st : OrderBook) (pred : Nat → LimitOrder → Bool) :
    List (Nat × LimitOrder) → Option OrderBook
  | [] => some st
  | (oid, o) :: l =>
    if pred oid o then
      match removeOne st oid o with
      | none => none
      | some st' => removeList st' pred l
    else removeList st pred l

/-- Shared body of `cancel_random` and `remove_by_flag`. -/
def removeWhere (st : OrderBook) (pred : Nat → LimitOrder → Bool) : Option OrderBook :=
  removeList st pred st.orders

/-- `OrderBook.cancel_random` (lines 163-181).  The independent
`random.random() < p` draws are modelled by an arbitrary selection
oracle over order ids; every outcome of the random stream corresponds
to one oracle. -/
def cancel_random (st : OrderBook) (sel : Nat → Bool) (t : Int) : Option OrderBook :=
  removeWhere st (fun oid _ => sel oid)

/-- `OrderBook.remove_by_flag` (lines 183-203). -/
def remove_by_flag (st : OrderBook) (flag : LimitOrder → Bool) (t : Int) : Option OrderBook :=
  removeWhere st (fun _ o => flag o)

/-- Total volume of all orders in the registry. -/
def regVol (reg : Registry) : Int := (reg.map (fun e => e.2.volume)).sum

/-- Volume of the order registered under an id (0 if unregistered). -/
def volOf (reg : Registry) (oid : Nat) : Int :=
  match alookup oid reg with
  | some o => o.volume
  | none => 0

/-- Total resting volume of a queue of order ids, read off the registry. -/
def levelVol (reg : Registry) (ids : List Nat) : Int :=
  (ids.map (volOf reg)).sum

/-- Total resting volume of one side of the book. -/
def bookVol (reg : Registry) (b : SideBook) : Int :=
  (b.map (fun e => levelVol reg e.2)).sum

/-- Well-formedness of a book state: the invariant the script maintains
(spec section 3): registry and level keys are unique, every id rests in
exactly one queue, a level key exists iff its queue is non-empty, every
queued id is registered on the matching side and price, and every
active order has positive volume and no `end_tick` yet. -/
structure WF (st : OrderBook) : Prop where
  regNodup : (st.orders.map Prod.fst).Nodup
  bidNodup : (keys st.bids).Nodup
  askNodup : (keys st.asks).Nodup
  idsNodup : (sideIds st.bids ++ sideIds st.asks).Nodup
  levelsOK : ∀ s p q, alookup p (sideBook st s) = some q →
      q ≠ [] ∧ ∀ oid ∈ q, ∃ o, alookup oid st.orders = some o ∧ o.side = s ∧ o.price = p
  ordersOK : ∀ oid o, alookup oid st.orders = some o →
      o.id = oid ∧ 0 < o.volume ∧ o.end_tick = none ∧
      ∃ q, alookup o.price (sideBook st o.side) = some q ∧ oid ∈ q

/-! Association-list bookkeeping lemmas used throughout. -/

theorem alookup_eq_none {α β : Type} [DecidableEq α] (k : α) :
    ∀ l : List (α × β), alookup k l = none ↔ k ∉ l.map Prod.fst := by
  intro l
  induction l with
  | nil => simp [alookup]
  | cons e l ih =>
    obtain ⟨k', v'⟩ := e
    by_cases hk : k' = k
    · subst hk; simp [alookup]
    · simp [alookup, hk, ih, Ne.symm hk]

theorem alookup_mem {α β : Type} [DecidableEq α] {k : α} {v : β} :
    ∀ {l : List (α × β)}, alookup k l = some v → (k, v) ∈ l := by
  intro l
  induction l with
  | nil => intro h; simp [alookup] at h
  | cons e l ih =>
    obtain ⟨k', v'⟩ := e
    intro h
    by_cases hk : k' = k
    · subst hk
      simp [alookup] at h
      simp [h]
    · simp [alookup, hk] at h
      exact List.mem_cons_of_mem _ (ih h)

theorem mem_keys_of_alookup {α β : Type} [DecidableEq α] {k : α} {v : β}
    {l : List (α × β)} (h : alookup k l = some v) : k ∈ l.map Prod.fst := by
  exact List.mem_map.mpr ⟨(k, v), alookup_mem h, rfl⟩

@[simp] theorem alookup_aset_self {α β : Type} [DecidableEq α] (k : α) (v : β) :
    ∀ l : List (α × β), alookup k (aset k v l) = some v := by
  intro l
  induction l with
  | nil => simp [aset, alookup]
  | cons e l ih =>
    obtain ⟨k', v'⟩ := e
    by_cases hk : k' = k
    · simp [aset, hk, alookup]
    · simp [aset, hk, alookup, ih]

theorem alookup_aset_ne {α β : Type} [DecidableEq α] {k k' : α} (v : β) (h : k' ≠ k) :
    ∀ l : List (α × β), alookup k' (aset k v l) = alookup k' l := by
  intro l
  induction l with
  | nil => simp [aset, alookup, Ne.symm h]
  | cons e l ih =>
    obtain ⟨k₀, v₀⟩ := e
    by_cases hk : k₀ = k
    · subst hk
      simp [aset, alookup, h, Ne.symm h]
    · simp [aset, hk, alookup, ih]

theorem alookup_adel_ne {α β : Type} [DecidableEq α] {k k' : α} (h : k' ≠ k) :
    ∀ l : List (α × β), alookup k' (adel k l) = alookup k' l := by
  intro l
  induction l with
  | nil => simp [adel]
  | cons e l ih =>
    obtain ⟨k₀, v₀⟩ := e
    by_cases hk : k₀ = k
    · subst hk
      simp [adel, alookup, Ne.symm h]
    · simp [adel, hk, alookup, ih]

theorem adel_of_none {α β : Type} [DecidableEq α] {k : α} :
    ∀ {l : List (α × β)}, alookup k l = none → adel k l = l := by
  intro l
  induction l with
  | nil => intro _; rfl
  | cons e l ih =>
    obtain ⟨k₀, v₀⟩ := e
    intro h
    by_cases hk : k₀ = k
    · simp [alookup, hk] at h
    · simp [alookup, hk] at h
      simp [adel, hk, ih h]

theorem alookup_adel_self {α β : Type} [DecidableEq α] {k : α} :
    ∀ {l : List (α × β)}, (l.map Prod.fst).Nodup → alookup k (adel k l) = none := by
  intro l
  induction l with
  | nil => intro _; rfl
  | cons e l ih =>
    obtain ⟨k₀, v₀⟩ := e
    intro hnd
    simp only [List.map_cons, List.nodup_cons] at hnd
    by_cases hk : k₀ = k
    · subst hk
      simp only [adel, if_pos rfl]
      exact (alookup_eq_none _ _).mpr hnd.1
    · simp [adel, hk, alookup, ih hnd.2]

theorem map_fst_aset_of_some {α β : Type} [DecidableEq α] {k : α} {w : β} (v : β) :
    ∀ {l : List (α × β)}, alookup k l = some w →
      (aset k v l).map Prod.fst = l.map Prod.fst := by
  intro l
  induction l with
  | nil => intro h; simp [alookup] at h
  | cons e l ih =>
    obtain ⟨k₀, v₀⟩ := e
    intro h
    by_cases hk : k₀ = k
    · simp [aset, hk]
    · simp [alookup, hk] at h
      simp [aset, hk, ih h]

theorem map_fst_aset_of_none {α β : Type} [DecidableEq α] {k : α} (v : β) :
    ∀ {l : List (α × β)}, alookup k l = none →
      (aset k v l).map Prod.fst = l.map Prod.fst ++ [k] := by
  intro l
  induction l with
  | nil => intro _; simp [aset]
  | cons e l ih =>
    obtain ⟨k₀, v₀⟩ := e
    intro h
    by_cases hk : k₀ = k
    · simp [alookup, hk] at h
    · simp [alookup, hk] at h
      simp [aset, hk, ih h]

theorem map_fst_adel_sublist {α β : Type} [DecidableEq α] (k : α) :
    ∀ l : List (α × β), ((adel k l).map Prod.fst).Sublist (l.map Prod.fst) := by
  intro l
  induction l with
  | nil => simp [adel]
  | cons e l ih =>
    obtain ⟨k₀, v₀⟩ := e
    by_cases hk : k₀ = k
    · simp [adel, hk]
    · simp only [adel, if_neg hk, List.map_cons]
      exact ih.cons₂ _

theorem adel_sublist {α β : Type} [DecidableEq α] (k : α) :
    ∀ l : List (α × β), (adel k l).Sublist l := by
  intro l
  induction l with
  | nil => simp [adel]
  | cons e l ih =>
    obtain ⟨k₀, v₀⟩ := e
    by_cases hk : k₀ = k
    · simp [adel, hk]
    · simp only [adel, if_neg hk]
      exact ih.cons₂ _

/-! Volume bookkeeping lemmas. -/

theorem regVol_nil : regVol [] = 0 := rfl

theorem regVol_cons (e : Nat × LimitOrder) (l : Registry) :
    regVol (e :: l) = e.2.volume + regVol l := by
  simp [regVol]

theorem regVol_aset {k : Nat} {o : LimitOrder} (v : LimitOrder) :
    ∀ {l : Registry}, alookup k l = some o →
      regVol (aset k v l) = regVol l - o.volume + v.volume := by
  intro l
  induction l with
  | nil => intro h; simp [alookup] at h
  | cons e l ih =>
    obtain ⟨k₀, v₀⟩ := e
    intro h
    by_cases hk : k₀ = k
    · simp only [alookup, if_pos hk] at h
      obtain rfl : v₀ = o := by injection h
      simp only [aset, if_pos hk, regVol_cons]
      ring
    · simp only [alookup, if_neg hk] at h
      simp only [aset, if_neg hk, regVol_cons, ih h]
      ring

theorem regVol_aset_none {k : Nat} (v : LimitOrder) :
    ∀ {l : Registry}, alookup k l = none →
      regVol (aset k v l) = regVol l + v.volume := by
  intro l
  induction l with
  | nil => intro _; simp [aset, regVol]
  | cons e l ih =>
    obtain ⟨k₀, v₀⟩ := e
    intro h
    by_cases hk : k₀ = k
    · simp [alookup, hk] at h
    · simp [alookup, hk] at h
      simp only [aset, if_neg hk, regVol_cons, ih h]
      ring

theorem regVol_adel {k : Nat} {o : LimitOrder} :
    ∀ {l : Registry}, alookup k l = some o →
      regVol (adel k l) = regVol l - o.volume := by
  intro l
  induction l with
  | nil => intro h; simp [alookup] at h
  | cons e l ih =>
    obtain ⟨k₀, v₀⟩ := e
    intro h
    by_cases hk : k₀ = k
    · simp only [alookup, if_pos hk] at h
      obtain rfl : v₀ = o := by injection h
      simp only [adel, if_pos hk, regVol_cons]
      ring
    · simp only [alookup, if_neg hk] at h
      simp only [adel, if_neg hk, regVol_cons, ih h]
      ring

theorem levelVol_nil (reg : Registry) : levelVol reg [] = 0 := rfl

theorem volOf_eq {reg : Registry} {oid : Nat} {o : LimitOrder}
    (h : alookup oid reg = some o) : volOf reg oid = o.volume := by
  simp [volOf, h]

theorem levelVol_cons (reg : Registry) (oid : Nat) (ids : List Nat) :
    levelVol reg (oid :: ids) = volOf reg oid + levelVol reg ids := by
  simp [levelVol]

theorem levelVol_congr {r₁ r₂ : Registry} :
    ∀ {ids : List Nat}, (∀ oid ∈ ids, alookup oid r₁ = alookup oid r₂) →
      levelVol r₁ ids = levelVol r₂ ids := by
  intro ids
  induction ids with
  | nil => intro _; rfl
  | cons oid ids ih =>
    intro h
    have hv : volOf r₁ oid = volOf r₂ oid := by
      simp [volOf, h oid (List.mem_cons_self _ _)]
    rw [levelVol_cons, levelVol_cons, hv,
      ih (fun x hx => h x (List.mem_cons_of_mem _ hx))]

theorem levelVol_nonneg {reg : Registry} {ids : List Nat}
    (h : ∀ oid ∈ ids, ∃ o, alookup oid reg = some o ∧ 0 < o.volume) :
    0 ≤ levelVol reg ids := by
  induction ids with
  | nil => simp [levelVol_nil]
  | cons oid ids ih =>
    rw [levelVol_cons]
    obtain ⟨o, ho, hv⟩ := h oid (List.mem_cons_self _ _)
    rw [volOf_eq ho]
    have := ih (fun x hx => h x (List.mem_cons_of_mem _ hx))
    omega

theorem levelVol_pos {reg : Registry} {ids : List Nat} (hne : ids ≠ [])
    (h : ∀ oid ∈ ids, ∃ o, alookup oid reg = some o ∧ 0 < o.volume) :
    0 < levelVol reg ids := by
  cases ids with
  | nil => exact absurd rfl hne
  | cons oid ids =>
    rw [levelVol_cons]
    obtain ⟨o, ho, hv⟩ := h oid (List.mem_cons_self _ _)
    rw [volOf_eq ho]
    have := levelVol_nonneg (fun x hx => h x (List.mem_cons_of_mem _ hx))
    omega

theorem bookVol_nil (reg : Registry) : bookVol reg [] = 0 := rfl

theorem bookVol_cons (reg : Registry) (e : ℚ × List Nat) (b : SideBook) :
    bookVol reg (e :: b) = levelVol reg e.2 + bookVol reg b := by
  simp [bookVol]

/-! Lemmas about the ids resting in one side. -/

theorem sideIds_nil : sideIds [] = [] := rfl

theorem sideIds_cons (e : ℚ × List Nat) (b : SideBook) :
    sideIds (e :: b) = e.2 ++ sideIds b := by
  simp [sideIds]

theorem mem_sideIds_of_alookup {p : ℚ} {q : List Nat} {oid : Nat} :
    ∀ {b : SideBook}, alookup p b = some q → oid ∈ q → oid ∈ sideIds b := by
  intro b
  induction b with
  | nil => intro h; simp [alookup] at h
  | cons e b ih =>
    obtain ⟨p₀, q₀⟩ := e
    intro h hm
    by_cases hp : p₀ = p
    · simp only [alookup, if_pos hp] at h
      obtain rfl : q₀ = q := by injection h
      rw [sideIds_cons]
      exact List.mem_append_left _ hm
    · simp only [alookup, if_neg hp] at h
      rw [sideIds_cons]
      exact List.mem_append_right _ (ih h hm)

theorem bookVol_congr {r₁ r₂ : Registry} :
    ∀ {b : SideBook}, (∀ oid ∈ sideIds b, alookup oid r₁ = alookup oid r₂) →
      bookVol r₁ b = bookVol r₂ b := by
  intro b
  induction b with
  | nil => intro _; rfl
  | cons e b ih =>
    intro h
    rw [bookVol_cons, bookVol_cons]
    rw [levelVol_congr (fun x hx => h x (by rw [sideIds_cons]; exact List.mem_append_left _ hx)),
      ih (fun x hx => h x (by rw [sideIds_cons]; exact List.mem_append_right _ hx))]

theorem bookVol_adel_level {reg : Registry} {p : ℚ} {q : List Nat} :
    ∀ {b : SideBook}, alookup p b = some q →
      bookVol reg (adel p b) = bookVol reg b - levelVol reg q := by
  intro b
  induction b with
  | nil => intro h; simp [alookup] at h
  | cons e b ih =>
    obtain ⟨p₀, q₀⟩ := e
    intro h
    by_cases hp : p₀ = p
    · simp only [alookup, if_pos hp] at h
      obtain rfl : q₀ = q := by injection h
      simp only [adel, if_pos hp, bookVol_cons]
      ring
    · simp only [alookup, if_neg hp] at h
      simp only [adel, if_neg hp, bookVol_cons, ih h]
      ring

theorem bookVol_aset_level {reg : Registry} {p : ℚ} {q : List Nat} (q' : List Nat) :
    ∀ {b : SideBook}, alookup p b = some q →
      bookVol reg (aset p q' b) = bookVol reg b - levelVol reg q + levelVol reg q' := by
  intro b
  induction b with
  | nil => intro h; simp [alookup] at h
  | cons e b ih =>
    obtain ⟨p₀, q₀⟩ := e
    intro h
    by_cases hp : p₀ = p
    · simp only [alookup, if_pos hp] at h
      obtain rfl : q₀ = q := by injection h
      simp only [aset, if_pos hp, bookVol_cons]
      ring
    · simp only [alookup, if_neg hp] at h
      simp only [aset, if_neg hp, bookVol_cons, ih h]
      ring

theorem sideIds_adel_sublist (p : ℚ) (b : SideBook) :
    (sideIds (adel p b)).Sublist (sideIds b) := by
  induction b with
  | nil => simp [adel]
  | cons e b ih =>
    obtain ⟨p₀, q₀⟩ := e
    by_cases hp : p₀ = p
    · simp only [adel, if_pos hp, sideIds_cons]
      exact List.sublist_append_right _ _
    · simp only [adel, if_neg hp, sideIds_cons]
      exact ih.append_left _

theorem sideIds_aset_sublist {p : ℚ} {q : List Nat} {q' : List Nat} (hs : q'.Sublist q) :
    ∀ {b : SideBook}, alookup p b = some q →
      (sideIds (aset p q' b)).Sublist (sideIds b) := by
  intro b
  induction b with
  | nil => intro h; simp [alookup] at h
  | cons e b ih =>
    obtain ⟨p₀, q₀⟩ := e
    intro h
    by_cases hp : p₀ = p
    · simp only [alookup, if_pos hp] at h
      obtain rfl : q₀ = q := by injection h
      simp only [aset, if_pos hp, sideIds_cons]
      exact hs.append_right _
    · simp only [alookup, if_neg hp] at h
      simp only [aset, if_neg hp, sideIds_cons]
      exact (ih h).append_left _

theorem sideIds_aset_subset {p : ℚ} {q' : List Nat} :
    ∀ (b : SideBook) (oid : Nat), oid ∈ sideIds (aset p q' b) → oid ∈ q' ∨ oid ∈ sideIds b := by
  intro b
  induction b with
  | nil =>
    intro oid h
    simp [aset, sideIds] at h
    exact Or.inl h
  | cons e b ih =>
    obtain ⟨p₀, q₀⟩ := e
    intro oid h
    by_cases hp : p₀ = p
    · simp only [aset, if_pos hp, sideIds_cons] at h
      rcases List.mem_append.mp h with h | h
      · exact Or.inl h
      · exact Or.inr (by rw [sideIds_cons]; exact List.mem_append_right _ h)
    · simp only [aset, if_neg hp, sideIds_cons] at h
      rcases List.mem_append.mp h with h | h
      · exact Or.inr (by rw [sideIds_cons]; exact List.mem_append_left _ h)
      · rcases ih oid h with h' | h'
        · exact Or.inl h'
        · exact Or.inr (by rw [sideIds_cons]; exact List.mem_append_right _ h')

/-! Unfolding equations for `consumeLevel`, one per execution path of the
inner matching loop. -/

theorem consumeLevel_nil (reg : Registry) (vol : Int) (t : Int) :
    consumeLevel reg [] vol t = some (reg, [], 0, vol) := by
  simp [consumeLevel]

theorem consumeLevel_cons_zero {vol : Int} (reg : Registry) (oid : Nat) (rest : List Nat)
    (t : Int) (hv : ¬ 0 < vol) :
    consumeLevel reg (oid :: rest) vol t = some (reg, oid :: rest, 0, vol) := by
  simp [consumeLevel, hv]

theorem consumeLevel_cons_full {reg : Registry} {oid : Nat} {o : LimitOrder} {vol : Int}
    (rest : List Nat) (t : Int) (hv : 0 < vol) (ho : alookup oid reg = some o)
    (hle : o.volume ≤ vol) :
    consumeLevel reg (oid :: rest) vol t =
      (match consumeLevel (adel oid reg) rest (vol - o.volume) t with
       | none => none
       | some (reg', ids', f, vol') => some (reg', ids', f + o.volume, vol')) := by
  have htake : min vol o.volume = o.volume := min_eq_right hle
  simp [consumeLevel, hv, ho, htake]

theorem consumeLevel_cons_part {reg : Registry} {oid : Nat} {o : LimitOrder} {vol : Int}
    (rest : List Nat) (t : Int) (hv : 0 < vol) (ho : alookup oid reg = some o)
    (hlt : vol < o.volume) :
    consumeLevel reg (oid :: rest) vol t =
      some (aset oid { o with volume := o.volume - vol } reg, oid :: rest, vol, 0) := by
  have htake : min vol o.volume = vol := min_eq_left (le_of_lt hlt)
  have hne : ¬ (o.volume - vol = 0) := by omega
  simp [consumeLevel, hv, ho, htake, hne]

/-- Everything the inner loop guarantees about one price level.
`reg, ids, vol` are the registry, FIFO queue and requested volume on
entry; `reg', ids', f, vol'` the registry, queue, filled volume and
remaining request on exit. -/
structure LevelOut (reg : Registry) (ids : List Nat) (vol : Int)
    (reg' : Registry) (ids' : List Nat) (f vol' : Int) : Prop where
  hsuffix : ids' <:+ ids
  hsplit : f + vol' = vol
  hfmin : f = min vol (levelVol reg ids)
  hvol' : 0 ≤ vol'
  hempty : 0 < vol' → ids' = []
  hlt : ids' ≠ [] → vol < levelVol reg ids
  hframe : ∀ k, k ∉ ids → alookup k reg' = alookup k reg
  herase : ∀ k ∈ ids, k ∉ ids' → alookup k reg' = none
  htri : ∀ k o', alookup k reg' = some o' → ∃ o, alookup k reg = some o ∧
      (o' = o ∨ ({ o with volume := o'.volume } = o' ∧ 0 < o'.volume ∧
        o'.volume < o.volume ∧ ids'.head? = some k))
  hsum : regVol reg' = regVol reg - f
  hnodup : (reg'.map Prod.fst).Nodup
  hkeep : ∀ k ∈ ids', ∃ o', alookup k reg' = some o' ∧ 0 < o'.volume
  hhead : ∀ k₀ rest₀, ids = k₀ :: rest₀ → 0 < vol → alookup k₀ reg' ≠ alookup k₀ reg

/-- Main specification of the inner loop: under the book invariant it
never raises, and its result satisfies `LevelOut`. -/
theorem consumeLevel_spec {t : Int} :
    ∀ {ids : List Nat} {reg : Registry} {vol : Int}, ids.Nodup →
      (∀ oid ∈ ids, ∃ o, alookup oid reg = some o ∧ 0 < o.volume) →
      (reg.map Prod.fst).Nodup → 0 ≤ vol →
      ∃ reg' ids' f vol', consumeLevel reg ids vol t = some (reg', ids', f, vol') ∧
        LevelOut reg ids vol reg' ids' f vol' := by
  intro ids
  induction ids with
  | nil =>
    intro reg vol _ _ hregn hv
    refine ⟨reg, [], 0, vol, consumeLevel_nil reg vol t, ?_⟩
    refine ⟨List.nil_suffix, by omega, ?_, hv, fun _ => rfl, fun h => absurd rfl h,
      fun _ _ => rfl, ?_, ?_, by simp [regVol], hregn, ?_, fun k₀ rest₀ h => absurd h (by simp)⟩
    · have : levelVol reg [] = 0 := rfl
      omega
    · intro k hk; simp at hk
    · intro k o' h; exact ⟨o', h, Or.inl rfl⟩
    · intro k hk; simp at hk
  | cons oid rest ih =>
    intro reg vol hn hin hregn hv
    obtain ⟨o, ho, hopos⟩ := hin oid (List.mem_cons_self _ _)
    have hnoid : oid ∉ rest := (List.nodup_cons.mp hn).1
    have hnrest : rest.Nodup := (List.nodup_cons.mp hn).2
    have hlv : levelVol reg (oid :: rest) = o.volume + levelVol reg rest := by
      rw [levelVol_cons, volOf_eq ho]
    have hlvrest : 0 ≤ levelVol reg rest :=
      levelVol_nonneg (fun x hx => hin x (List.mem_cons_of_mem _ hx))
    by_cases hvz : 0 < vol
    · by_cases hle : o.volume ≤ vol
      · -- the head order is fully consumed, deleted, and the loop continues
        have hin₂ : ∀ k ∈ rest, ∃ o', alookup k (adel oid reg) = some o' ∧ 0 < o'.volume := by
          intro k hk
          obtain ⟨o', h1, h2⟩ := hin k (List.mem_cons_of_mem _ hk)
          exact ⟨o', by rw [alookup_adel_ne (fun he => hnoid (by rw [← he]; exact hk))]; exact h1, h2⟩
        have hregn₂ : ((adel oid reg).map Prod.fst).Nodup :=
          hregn.sublist (map_fst_adel_sublist oid reg)
        obtain ⟨reg', ids', f₂, vol', heq, hout⟩ :=
          ih hnrest hin₂ hregn₂ (by omega : (0:Int) ≤ vol - o.volume)
        have hlv₂ : levelVol (adel oid reg) rest = levelVol reg rest :=
          levelVol_congr (fun k hk => alookup_adel_ne (fun he => hnoid (by rw [← he]; exact hk)) reg)
        refine ⟨reg', ids', f₂ + o.volume, vol', ?_, ?_⟩
        · rw [consumeLevel_cons_full rest t hvz ho hle, heq]
        · refine ⟨hout.hsuffix.trans (List.suffix_cons oid rest), by
            have := hout.hsplit; omega, ?_, hout.hvol', hout.hempty, ?_, ?_, ?_, ?_, ?_,
            hout.hnodup, hout.hkeep, ?_⟩
          · have := hout.hfmin
            rw [hlv₂] at this
            rw [hlv]
            omega
          · intro hne
            have := hout.hlt hne
            rw [hlv₂] at this
            rw [hlv]
            omega
          · intro k hk
            have hk1 : k ∉ rest := fun h => hk (List.mem_cons_of_mem _ h)
            have hk2 : k ≠ oid := fun h => hk (h ▸ List.mem_cons_self _ _)
            rw [hout.hframe k hk1, alookup_adel_ne hk2]
          · intro k hk hk'
            rcases List.mem_cons.mp hk with rfl | hk
            · rw [hout.hframe k hnoid]
              exact alookup_adel_self hregn
            · exact hout.herase k hk hk'
          · intro k o' h
            obtain ⟨o₂, ho₂, hbr⟩ := hout.htri k o' h
            by_cases hk : k = oid
            · subst hk
              rw [alookup_adel_self hregn] at ho₂
              exact absurd ho₂ (by simp)
            · rw [alookup_adel_ne hk] at ho₂
              exact ⟨o₂, ho₂, hbr⟩
          · rw [hout.hsum, regVol_adel ho]
            omega
          · intro k₀ rest₀ heq hvol
            have hk₀ : oid = k₀ := by injection heq
            subst hk₀
            rw [hout.hframe oid hnoid, alookup_adel_self hregn, ho]
            simp
      · -- the head order is only partially filled; the loop stops
        have hlt : vol < o.volume := lt_of_not_ge hle
        refine ⟨aset oid { o with volume := o.volume - vol } reg, oid :: rest, vol, 0,
          consumeLevel_cons_part rest t hvz ho hlt, ?_⟩
        refine ⟨List.suffix_refl _, by omega, ?_, le_refl 0, by omega, ?_, ?_, ?_, ?_, ?_, ?_, ?_, ?_⟩
        · rw [hlv]; omega
        · intro _; rw [hlv]; omega
        · intro k hk
          have hk2 : k ≠ oid := fun h => hk (h ▸ List.mem_cons_self _ _)
          exact alookup_aset_ne _ hk2 reg
        · intro k hk hk'
          exact absurd hk hk'
        · intro k o' h
          by_cases hk : k = oid
          · subst hk
            rw [alookup_aset_self] at h
            obtain rfl : { o with volume := o.volume - vol } = o' := by injection h
            exact ⟨o, ho, Or.inr ⟨rfl, by simp; omega, by simp; omega, rfl⟩⟩
          · rw [alookup_aset_ne _ hk] at h
            exact ⟨o', h, Or.inl rfl⟩
        · have hpr : ({ o with volume := o.volume - vol } : LimitOrder).volume
              = o.volume - vol := rfl
          rw [regVol_aset _ ho, hpr]
          omega
        · exact hregn.sublist (by rw [map_fst_aset_of_some _ ho])
        · intro k hk
          rcases List.mem_cons.mp hk with rfl | hk
          · exact ⟨{ o with volume := o.volume - vol }, alookup_aset_self _ _ _, by simp; omega⟩
          · obtain ⟨o', h1, h2⟩ := hin k (List.mem_cons_of_mem _ hk)
            refine ⟨o', ?_, h2⟩
            rw [alookup_aset_ne _ (fun he => hnoid (by rw [← he]; exact hk))]
            exact h1
        · intro k₀ rest₀ heq hvol
          have hk₀ : oid = k₀ := by injection heq
          subst hk₀
          rw [alookup_aset_self, ho]
          intro hcontr
          have heq2 : ({ o with volume := o.volume - vol } : LimitOrder) = o := by
            injection hcontr
          have hveq : o.volume - vol = o.volume := congrArg LimitOrder.volume heq2
          omega
    · -- the requested volume is already exhausted
      have hve : vol = 0 := by omega
      refine ⟨reg, oid :: rest, 0, vol, consumeLevel_cons_zero reg oid rest t hvz, ?_⟩
      refine ⟨List.suffix_refl _, by omega, ?_, by omega, by omega, ?_, fun _ _ => rfl, ?_,
        fun k o' h => ⟨o', h, Or.inl rfl⟩, by omega, hregn, fun k hk => hin k hk,
        fun k₀ rest₀ _ hvol => absurd hvol hvz⟩
      · have : 0 ≤ levelVol reg (oid :: rest) := by rw [hlv]; omega
        omega
      · intro _
        have : 0 < levelVol reg (oid :: rest) := by rw [hlv]; omega
        omega
      · intro k hk hk'
        exact absurd hk hk'

/-! Helper lemmas about price levels viewed as chunks of the side's ids. -/

theorem alookup_of_mem_nodup {α β : Type} [DecidableEq α] {k : α} {v : β} :
    ∀ {l : List (α × β)}, (l.map Prod.fst).Nodup → (k, v) ∈ l → alookup k l = some v := by
  intro l
  induction l with
  | nil => intro _ h; simp at h
  | cons e l ih =>
    obtain ⟨k₀, v₀⟩ := e
    intro hnd hm
    simp only [List.map_cons, List.nodup_cons] at hnd
    rcases List.mem_cons.mp hm with h | h
    · obtain ⟨h1, h2⟩ := Prod.mk.injEq .. ▸ h
      injection h with h1 h2
      subst h1; subst h2
      simp [alookup]
    · have hk : k₀ ≠ k := by
        intro he
        subst he
        exact hnd.1 (List.mem_map.mpr ⟨(k₀, v), h, rfl⟩)
      simp [alookup, hk]
      exact ih hnd.2 h

theorem alookup_of_mem_keys {α β : Type} [DecidableEq α] {k : α} :
    ∀ {l : List (α × β)}, k ∈ l.map Prod.fst → ∃ v, alookup k l = some v := by
  intro l
  induction l with
  | nil => intro h; simp at h
  | cons e l ih =>
    obtain ⟨k₀, v₀⟩ := e
    intro h
    by_cases hk : k₀ = k
    · exact ⟨v₀, by simp [alookup, hk]⟩
    · simp only [List.map_cons] at h
      rcases List.mem_cons.mp h with h' | h'
      · exact absurd h'.symm hk
      · obtain ⟨v, hv⟩ := ih h'
        exact ⟨v, by simp [alookup, hk, hv]⟩

theorem alookup_head {α β : Type} [DecidableEq α] (k : α) (v : β) (l : List (α × β)) :
    alookup k ((k, v) :: l) = some v := by
  simp [alookup]

theorem level_sublist_sideIds {p : ℚ} {q : List Nat} :
    ∀ {b : SideBook}, alookup p b = some q → q.Sublist (sideIds b) := by
  intro b
  induction b with
  | nil => intro h; simp [alookup] at h
  | cons e b ih =>
    obtain ⟨p₀, q₀⟩ := e
    intro h
    by_cases hp : p₀ = p
    · simp only [alookup, if_pos hp] at h
      obtain rfl : q₀ = q := by injection h
      rw [sideIds_cons]
      exact List.sublist_append_left _ _
    · simp only [alookup, if_neg hp] at h
      rw [sideIds_cons]
      exact (ih h).trans (List.sublist_append_right _ _)

theorem levels_disjoint :
    ∀ {b : SideBook}, (sideIds b).Nodup → ∀ {p p' : ℚ} {q q' : List Nat},
      alookup p b = some q → alookup p' b = some q' → p ≠ p' →
      ∀ x ∈ q, x ∉ q' := by
  intro b
  induction b with
  | nil => intro _ p p' q q' h; simp [alookup] at h
  | cons e b ih =>
    obtain ⟨p₀, q₀⟩ := e
    intro hi p p' q q' h h' hne x hx
    rw [sideIds_cons] at hi
    obtain ⟨hq₀, hrest, hdis⟩ := List.nodup_append.mp hi
    by_cases hp : p₀ = p
    · subst hp
      rw [alookup_head] at h
      obtain rfl : q₀ = q := by injection h
      have hp' : p₀ ≠ p' := hne
      simp only [alookup, if_neg hp'] at h'
      intro hx'
      exact hdis hx ((level_sublist_sideIds h').mem hx')
    · simp only [alookup, if_neg hp] at h
      by_cases hp' : p₀ = p'
      · subst hp'
        rw [alookup_head] at h'
        obtain rfl : q₀ = q' := by injection h'
        intro hx'
        exact hdis hx' ((level_sublist_sideIds h).mem hx)
      · simp only [alookup, if_neg hp'] at h'
        exact ih hrest h h' hne x hx

theorem mem_chunk_split {p : ℚ} {q : List Nat} :
    ∀ {b : SideBook}, alookup p b = some q →
      ∀ k ∈ sideIds b, k ∈ q ∨ k ∈ sideIds (adel p b) := by
  intro b
  induction b with
  | nil => intro h; simp [alookup] at h
  | cons e b ih =>
    obtain ⟨p₀, q₀⟩ := e
    intro h k hk
    by_cases hp : p₀ = p
    · simp only [alookup, if_pos hp] at h
      obtain rfl : q₀ = q := by injection h
      rw [sideIds_cons] at hk
      simp only [adel, if_pos hp]
      exact List.mem_append.mp hk
    · simp only [alookup, if_neg hp] at h
      rw [sideIds_cons] at hk
      simp only [adel, if_neg hp]
      rcases List.mem_append.mp hk with hk' | hk'
      · exact Or.inr (by rw [sideIds_cons]; exact List.mem_append_left _ hk')
      · rcases ih h k hk' with h' | h'
        · exact Or.inl h'
        · exact Or.inr (by rw [sideIds_cons]; exact List.mem_append_right _ h')

theorem adel_chunk_disjoint {p : ℚ} {q : List Nat} :
    ∀ {b : SideBook}, (sideIds b).Nodup → alookup p b = some q →
      ∀ x ∈ sideIds (adel p b), x ∉ q := by
  intro b
  induction b with
  | nil => intro _ h; simp [alookup] at h
  | cons e b ih =>
    obtain ⟨p₀, q₀⟩ := e
    intro hi h x hx
    rw [sideIds_cons] at hi
    obtain ⟨hq₀, hrest, hdis⟩ := List.nodup_append.mp hi
    by_cases hp : p₀ = p
    · subst hp
      rw [alookup_head] at h
      obtain rfl : q₀ = q := by injection h
      simp only [adel, if_pos rfl] at hx
      intro hx'
      exact hdis hx' hx
    · simp only [alookup, if_neg hp] at h
      simp only [adel, if_neg hp, sideIds_cons] at hx
      rcases List.mem_append.mp hx with hx' | hx'
      · intro hq
        exact hdis hx' ((level_sublist_sideIds h).mem hq)
      · exact ih hrest h x hx'

theorem bookVol_nonneg_pos {reg : Registry} :
    ∀ {b : SideBook}, (keys b).Nodup →
      (∀ p q, alookup p b = some q → q ≠ [] ∧
        ∀ oid ∈ q, ∃ o, alookup oid reg = some o ∧ 0 < o.volume) →
      0 ≤ bookVol reg b ∧ (b ≠ [] → 0 < bookVol reg b) := by
  intro b
  induction b with
  | nil => intro _ _; exact ⟨le_refl 0, fun h => absurd rfl h⟩
  | cons e b ih =>
    obtain ⟨p₀, q₀⟩ := e
    intro hk hprop
    simp only [keys, List.map_cons, List.nodup_cons] at hk
    have hhead := hprop p₀ q₀ (alookup_head ..)
    have hpos : 0 < levelVol reg q₀ := levelVol_pos hhead.1 hhead.2
    have hrest : ∀ p q, alookup p b = some q → q ≠ [] ∧
        ∀ oid ∈ q, ∃ o, alookup oid reg = some o ∧ 0 < o.volume := by
      intro p q h
      have hp : p₀ ≠ p := by
        intro he
        subst he
        exact hk.1 (mem_keys_of_alookup h)
      exact hprop p q (by simp [alookup, hp, h])
    obtain ⟨h1, _⟩ := ih hk.2 hrest
    have hb2 : levelVol reg ((p₀, q₀) : ℚ × List Nat).2 = levelVol reg q₀ := rfl
    rw [bookVol_cons, hb2]
    constructor
    · omega
    · intro _; omega

theorem keys_def (b : SideBook) : keys b = b.map Prod.fst := rfl

/-- The part of the book invariant `_consume` relies on, for the one
side it walks. -/
structure SideOK (reg : Registry) (book : SideBook) : Prop where
  kNodup : (keys book).Nodup
  iNodup : (sideIds book).Nodup
  rNodup : (reg.map Prod.fst).Nodup
  levels : ∀ p q, alookup p book = some q → q ≠ [] ∧
      ∀ oid ∈ q, ∃ o, alookup oid reg = some o ∧ o.price = p ∧ 0 < o.volume

/-- An id whose registered order differs between two registries. -/
def RegChanged (reg reg' : Registry) (k : Nat) : Prop :=
  ∃ o o', alookup k reg = some o ∧ alookup k reg' = some o' ∧ o' ≠ o

/-- Everything one `_consume` call guarantees about the walked side. -/
structure BookOut (reg : Registry) (book : SideBook) (vol : Int)
    (reg' : Registry) (book' : SideBook) (f : Int) : Prop where
  bfmin : f = min vol (bookVol reg book)
  bframe : ∀ k, k ∉ sideIds book → alookup k reg' = alookup k reg
  btri : ∀ k o', alookup k reg' = some o' → ∃ o, alookup k reg = some o ∧
      (o' = o ∨ ({ o with volume := o'.volume } = o' ∧ 0 < o'.volume ∧ o'.volume < o.volume ∧
        ∃ q', alookup o.price book' = some q' ∧ q'.head? = some k))
  blev_suffix : ∀ p q', alookup p book' = some q' → ∃ q, alookup p book = some q ∧ q' <:+ q
  blev_none : ∀ p, alookup p book = none → alookup p book' = none
  blev_unch : ∀ p q, alookup p book = some q →
      (∀ k ∈ q, alookup k reg' = alookup k reg) → alookup p book' = some q
  blev_mem : ∀ p q, alookup p book = some q → ∀ k ∈ q, alookup k reg' = none ∨
      ∃ q', alookup p book' = some q' ∧ k ∈ q'
  bfull : bookVol reg book ≤ vol → book' = [] ∧ ∀ k ∈ sideIds book, alookup k reg' = none
  bsum : regVol reg' = regVol reg - f
  bok : SideOK reg' book'
  buniq : ∀ k₁ k₂, RegChanged reg reg' k₁ → RegChanged reg reg' k₂ → k₁ = k₂
  bids_sub : ∀ k ∈ sideIds book', k ∈ sideIds book

/-! Unfolding equations for `consume`, one per execution path of the
outer matching loop. -/

theorem consume_stop {vol : Int} (reg : Registry) (book : SideBook) (asc : Bool) (t : Int)
    (hv : ¬ 0 < vol) : consume reg book vol asc t = some (reg, book, 0) := by
  rw [consume.eq_def]
  simp [hv]

theorem consume_nil {vol : Int} (reg : Registry) (asc : Bool) (t : Int) (hv : 0 < vol) :
    consume reg [] vol asc t = some (reg, [], 0) := by
  rw [consume.eq_def]
  simp [hv]

theorem consume_cons {vol : Int} {reg : Registry} {e : ℚ × List Nat} {l : SideBook}
    {asc : Bool} {t : Int} {ids : List Nat} {reg₁ : Registry} {ids₁ : List Nat} {f₁ vol₁ : Int}
    (hv : 0 < vol)
    (hids : alookup (bestKey (e :: l) asc) (e :: l) = some ids)
    (hcl : consumeLevel reg ids vol t = some (reg₁, ids₁, f₁, vol₁)) :
    consume reg (e :: l) vol asc t =
      (if ids₁ = [] then
        if 0 < vol₁ then
          match consume reg₁ (adel (bestKey (e :: l) asc) (e :: l)) vol₁ asc t with
          | none => none
          | some (reg₂, book₂, f₂) => some (reg₂, book₂, f₁ + f₂)
        else some (reg₁, adel (bestKey (e :: l) asc) (e :: l), f₁)
      else some (reg₁, aset (bestKey (e :: l) asc) ids₁ (e :: l), f₁)) := by
  rw [consume.eq_def]
  simp only [if_pos hv, hids, hcl]

theorem mem_of_head {α : Type} {l : List α} {k : α} (h : l.head? = some k) : k ∈ l := by
  cases l with
  | nil => simp at h
  | cons a l =>
    simp at h
    subst h
    exact List.mem_cons_self _ _

theorem SideOK.volNonneg {reg : Registry} {book : SideBook} (hok : SideOK reg book) :
    0 ≤ bookVol reg book := by
  refine (bookVol_nonneg_pos hok.kNodup ?_).1
  intro p q h
  obtain ⟨h1, h2⟩ := hok.levels p q h
  exact ⟨h1, fun oid hm => by obtain ⟨o, ha, _, hc⟩ := h2 oid hm; exact ⟨o, ha, hc⟩⟩

theorem SideOK.volPos {reg : Registry} {book : SideBook} (hok : SideOK reg book)
    (hne : book ≠ []) : 0 < bookVol reg book := by
  refine (bookVol_nonneg_pos hok.kNodup ?_).2 hne
  intro p q h
  obtain ⟨h1, h2⟩ := hok.levels p q h
  exact ⟨h1, fun oid hm => by obtain ⟨o, ha, _, hc⟩ := h2 oid hm; exact ⟨o, ha, hc⟩⟩

/-- Removing one whole level keeps the side invariant, also against a
registry that only changed on that level's ids. -/
theorem SideOK_adel_of {reg reg₁ : Registry} {book : SideBook} {price : ℚ} {ids : List Nat}
    (hok : SideOK reg book) (hids : alookup price book = some ids)
    (hagree : ∀ k, k ∉ ids → alookup k reg₁ = alookup k reg)
    (hrn : (reg₁.map Prod.fst).Nodup) :
    SideOK reg₁ (adel price book) := by
  have hkN : (book.map Prod.fst).Nodup := hok.kNodup
  refine ⟨?_, ?_, hrn, ?_⟩
  · exact hok.kNodup.sublist (map_fst_adel_sublist price book)
  · exact hok.iNodup.sublist (sideIds_adel_sublist price book)
  · intro p q h
    by_cases hp : p = price
    · subst hp
      rw [alookup_adel_self hkN] at h
      exact absurd h (by simp)
    · rw [alookup_adel_ne hp] at h
      obtain ⟨h1, h2⟩ := hok.levels p q h
      refine ⟨h1, ?_⟩
      intro oid hm
      obtain ⟨o, ha, hb, hc⟩ := h2 oid hm
      have hnotin : oid ∉ ids := levels_disjoint hok.iNodup h hids hp oid hm
      exact ⟨o, by rw [hagree oid hnotin]; exact ha, hb, hc⟩

/-- `_consume` on an empty side fills nothing and changes nothing. -/
theorem BookOut_empty {reg : Registry} {vol : Int} (hok : SideOK reg [])
    (hv : 0 ≤ vol) : BookOut reg [] vol reg [] 0 := by
  refine ⟨?_, fun _ _ => rfl, fun k o' h => ⟨o', h, Or.inl rfl⟩, ?_, fun _ h => h, ?_, ?_,
    fun _ => ⟨rfl, ?_⟩, by omega, hok, ?_, fun k hk => hk⟩
  · have hb : bookVol reg ([] : SideBook) = 0 := rfl
    omega
  · intro p q' h
    exact ⟨q', h, List.suffix_refl _⟩
  · intro p q h _
    exact h
  · intro p q h k hk
    exact Or.inr ⟨q, h, hk⟩
  · intro k hk
    rw [sideIds_nil] at hk
    cases hk
  · intro k₁ k₂ hc₁ _
    obtain ⟨o, o', h1, h2, hne⟩ := hc₁
    rw [h1] at h2
    injection h2 with h2
    exact absurd h2.symm hne

/-- `_consume` with an exhausted request fills nothing and changes
nothing. -/
theorem BookOut_stop {reg : Registry} {book : SideBook} {vol : Int} (hok : SideOK reg book)
    (hv : vol = 0) : BookOut reg book vol reg book 0 := by
  subst hv
  refine ⟨?_, fun _ _ => rfl, fun k o' h => ⟨o', h, Or.inl rfl⟩, ?_, fun _ h => h, ?_, ?_,
    ?_, by omega, hok, ?_, fun k hk => hk⟩
  · have := hok.volNonneg
    omega
  · intro p q' h
    exact ⟨q', h, List.suffix_refl _⟩
  · intro p q h _
    exact h
  · intro p q h k hk
    exact Or.inr ⟨q, h, hk⟩
  · intro hb
    have h0 := hok.volNonneg
    have hbe : book = [] := by
      by_contra hne
      have := hok.volPos hne
      omega
    subst hbe
    refine ⟨rfl, ?_⟩
    intro k hk
    rw [sideIds_nil] at hk
    cases hk
  · intro k₁ k₂ hc₁ _
    obtain ⟨o, o', h1, h2, hne⟩ := hc₁
    rw [h1] at h2
    injection h2 with h2
    exact absurd h2.symm hne

/-- Main specification of `OrderBook._consume`: under the book
invariant it never raises, and its result satisfies `BookOut`.  The
fuel `n` bounds the number of price levels; the outer loop deletes one
level before each new iteration. -/
theorem consume_spec {asc : Bool} {t : Int} :
    ∀ (n : Nat) {book : SideBook} {reg : Registry} {vol : Int}, book.length ≤ n →
      SideOK reg book → 0 ≤ vol →
      ∃ reg' book' f, consume reg book vol asc t = some (reg', book', f) ∧
        BookOut reg book vol reg' book' f := by
  intro n
  induction n with
  | zero =>
    intro book reg vol hlen hok hv
    have hbe : book = [] := List.length_eq_zero.mp (Nat.le_zero.mp hlen)
    subst hbe
    by_cases hvz : 0 < vol
    · exact ⟨reg, [], 0, consume_nil reg asc t hvz, BookOut_empty hok hv⟩
    · exact ⟨reg, [], 0, consume_stop reg [] asc t hvz, BookOut_empty hok hv⟩
  | succ n ih =>
    intro book reg vol hlen hok hv
    by_cases hvz : 0 < vol
    · cases book with
      | nil => exact ⟨reg, [], 0, consume_nil reg asc t hvz, BookOut_empty hok hv⟩
      | cons e l =>
        have hkN : ((e :: l).map Prod.fst).Nodup := hok.kNodup
        set P := bestKey (e :: l) asc with hPdef
        have hpmem : P ∈ (e :: l).map Prod.fst := bestKey_mem e l asc
        obtain ⟨ids, hids⟩ := alookup_of_mem_keys hpmem
        obtain ⟨hqne, hqmem⟩ := hok.levels _ ids hids
        have hqnodup : ids.Nodup := hok.iNodup.sublist (level_sublist_sideIds hids)
        have hin : ∀ oid ∈ ids, ∃ o, alookup oid reg = some o ∧ 0 < o.volume := by
          intro oid h
          obtain ⟨o, h1, _, h3⟩ := hqmem oid h
          exact ⟨o, h1, h3⟩
        obtain ⟨reg₁, ids₁, f₁, vol₁, hcl, lout⟩ :=
          consumeLevel_spec (t := t) hqnodup hin hok.rNodup hv
        have hrw := @consume_cons vol reg e l asc t ids reg₁ ids₁ f₁ vol₁ hvz hids hcl
        have hL0 : 0 ≤ levelVol reg ids := levelVol_nonneg hin
        have hokad : SideOK reg (adel P (e :: l)) :=
          SideOK_adel_of hok hids (fun _ _ => rfl) hok.rNodup
        have hB2nn : 0 ≤ bookVol reg (adel P (e :: l)) := hokad.volNonneg
        have hBeq : bookVol reg (e :: l) =
            levelVol reg ids + bookVol reg (adel P (e :: l)) := by
          have h := @bookVol_adel_level reg P ids (e :: l) hids
          omega
        have hPne : ∀ {p : ℚ} {q : List Nat}, alookup p (e :: l) = some q → True := fun _ => trivial
        by_cases hids₁ : ids₁ = []
        · subst hids₁
          by_cases hv₁ : 0 < vol₁
          · -- the level was emptied and the loop continues on the rest
            have hok₂ : SideOK reg₁ (adel P (e :: l)) :=
              SideOK_adel_of hok hids lout.hframe lout.hnodup
            have hlen₂ : (adel P (e :: l)).length ≤ n := by
              have := length_adel_lt P (e :: l) hpmem
              simp only [List.length_cons] at hlen this
              omega
            obtain ⟨reg₂, book₂, f₂, hcb, bout⟩ := ih hlen₂ hok₂ (le_of_lt hv₁)
            have hbv₂ : bookVol reg₁ (adel P (e :: l)) = bookVol reg (adel P (e :: l)) :=
              bookVol_congr (fun k hk => lout.hframe k (adel_chunk_disjoint hok.iNodup hids k hk))
            have hnl : ∀ k, alookup k reg₁ = none → alookup k reg₂ = none := by
              intro k hk
              cases hcase : alookup k reg₂ with
              | none => rfl
              | some o' =>
                obtain ⟨o₁, h₁, _⟩ := bout.btri k o' hcase
                rw [hk] at h₁
                exact absurd h₁ (by simp)
            have herased : ∀ k ∈ ids, alookup k reg₂ = none := by
              intro k hk
              exact hnl k (lout.herase k hk (by simp))
            refine ⟨reg₂, book₂, f₁ + f₂, ?_, ?_⟩
            · rw [hrw]
              simp [hv₁, hcb]
            · refine ⟨?_, ?_, ?_, ?_, ?_, ?_, ?_, ?_, ?_, bout.bok, ?_, ?_⟩
              · have h1 := lout.hfmin
                have h2 := lout.hsplit
                have h3 := bout.bfmin
                rw [hbv₂] at h3
                omega
              · intro k hk
                have hk1 : k ∉ ids := fun h => hk ((level_sublist_sideIds hids).mem h)
                have hk2 : k ∉ sideIds (adel P (e :: l)) :=
                  fun h => hk ((sideIds_adel_sublist P (e :: l)).mem h)
                rw [bout.bframe k hk2, lout.hframe k hk1]
              · intro k o' h
                obtain ⟨o₁, h₁, hbr⟩ := bout.btri k o' h
                obtain ⟨o, h₀, hbr₀⟩ := lout.htri k o₁ h₁
                have ho₁ : o₁ = o := by
                  rcases hbr₀ with h' | ⟨_, _, _, hh⟩
                  · exact h'
                  · simp at hh
                subst ho₁
                exact ⟨o₁, h₀, hbr⟩
              · intro p q' h
                obtain ⟨q₂, hq₂, hsuf⟩ := bout.blev_suffix p q' h
                have hp : p ≠ P := by
                  intro he
                  rw [he, alookup_adel_self hkN] at hq₂
                  exact absurd hq₂ (by simp)
                rw [alookup_adel_ne hp] at hq₂
                exact ⟨q₂, hq₂, hsuf⟩
              · intro p h
                have hp : p ≠ P := by
                  intro he
                  rw [he, hids] at h
                  exact absurd h (by simp)
                apply bout.blev_none
                rw [alookup_adel_ne hp]
                exact h
              · intro p q h hagr
                by_cases hp : p = P
                · subst hp
                  rw [hids] at h
                  injection h with hq
                  subst hq
                  obtain ⟨k₀, rest₀, hcons⟩ := List.exists_cons_of_ne_nil hqne
                  have hmem₀ : k₀ ∈ ids := by rw [hcons]; exact List.mem_cons_self _ _
                  obtain ⟨o₀, ho₀, _, _⟩ := hqmem k₀ hmem₀
                  have h2 := herased k₀ hmem₀
                  rw [hagr k₀ hmem₀, ho₀] at h2
                  exact absurd h2 (by simp)
                · have hadel : alookup p (adel P (e :: l)) = some q := by
                    rw [alookup_adel_ne hp]
                    exact h
                  apply bout.blev_unch p q hadel
                  intro k hk
                  have hknotin : k ∉ ids := levels_disjoint hok.iNodup h hids hp k hk
                  rw [hagr k hk]
                  exact (lout.hframe k hknotin).symm
              · intro p q h k hk
                by_cases hp : p = P
                · subst hp
                  rw [hids] at h
                  injection h with hq
                  subst hq
                  exact Or.inl (herased k hk)
                · have hadel : alookup p (adel P (e :: l)) = some q := by
                    rw [alookup_adel_ne hp]
                    exact h
                  exact bout.blev_mem p q hadel k hk
              · intro hBv
                have hf₁ := lout.hfmin
                have hsp := lout.hsplit
                have hvol₁B : bookVol reg₁ (adel P (e :: l)) ≤ vol₁ := by
                  rw [hbv₂]
                  omega
                obtain ⟨hb2e, hall⟩ := bout.bfull hvol₁B
                refine ⟨hb2e, ?_⟩
                intro k hk
                rcases mem_chunk_split hids k hk with h' | h'
                · exact herased k h'
                · exact hall k h'
              · rw [bout.bsum, lout.hsum]
                omega
              · intro k₁ k₂ hc₁ hc₂
                have hstep : ∀ k, RegChanged reg reg₂ k → RegChanged reg₁ reg₂ k := by
                  intro k hc
                  obtain ⟨o, o', h1, h2, hne⟩ := hc
                  have hknotin : k ∉ ids := by
                    intro hk
                    rw [herased k hk] at h2
                    cases h2
                  exact ⟨o, o', by rw [lout.hframe k hknotin]; exact h1, h2, hne⟩
                exact bout.buniq k₁ k₂ (hstep k₁ hc₁) (hstep k₂ hc₂)
              · intro k hk
                exact (sideIds_adel_sublist P (e :: l)).mem (bout.bids_sub k hk)
          · -- the level was emptied exactly when the request ran out
            have hv₁0 : vol₁ = 0 := by
              have := lout.hvol'
              omega
            have hfv : f₁ = vol := by
              have := lout.hsplit
              omega
            have hvL : vol ≤ levelVol reg ids := by
              have := lout.hfmin
              omega
            refine ⟨reg₁, adel P (e :: l), f₁, ?_, ?_⟩
            · rw [hrw]
              simp [hv₁]
            · refine ⟨?_, ?_, ?_, ?_, ?_, ?_, ?_, ?_, lout.hsum, ?_, ?_, ?_⟩
              · omega
              · intro k hk
                exact lout.hframe k (fun h => hk ((level_sublist_sideIds hids).mem h))
              · intro k o' h
                obtain ⟨o, h₀, hbr⟩ := lout.htri k o' h
                refine ⟨o, h₀, ?_⟩
                rcases hbr with h' | ⟨_, _, _, hh⟩
                · exact Or.inl h'
                · simp at hh
              · intro p q' h
                have hp : p ≠ P := by
                  intro he
                  rw [he, alookup_adel_self hkN] at h
                  exact absurd h (by simp)
                rw [alookup_adel_ne hp] at h
                exact ⟨q', h, List.suffix_refl _⟩
              · intro p h
                have hp : p ≠ P := by
                  intro he
                  rw [he, hids] at h
                  exact absurd h (by simp)
                rw [alookup_adel_ne hp]
                exact h
              · intro p q h hagr
                by_cases hp : p = P
                · subst hp
                  rw [hids] at h
                  injection h with hq
                  subst hq
                  obtain ⟨k₀, rest₀, hcons⟩ := List.exists_cons_of_ne_nil hqne
                  have hmem₀ : k₀ ∈ ids := by rw [hcons]; exact List.mem_cons_self _ _
                  obtain ⟨o₀, ho₀, _, _⟩ := hqmem k₀ hmem₀
                  have h2 := lout.herase k₀ hmem₀ (by simp)
                  rw [hagr k₀ hmem₀, ho₀] at h2
                  exact absurd h2 (by simp)
                · rw [alookup_adel_ne hp]
                  exact h
              · intro p q h k hk
                by_cases hp : p = P
                · subst hp
                  rw [hids] at h
                  injection h with hq
                  subst hq
                  exact Or.inl (lout.herase k hk (by simp))
                · exact Or.inr ⟨q, by rw [alookup_adel_ne hp]; exact h, hk⟩
              · intro hBv
                have hB2z : bookVol reg (adel P (e :: l)) = 0 := by omega
                have hbe : adel P (e :: l) = [] := by
                  by_contra hne
                  have := hokad.volPos hne
                  omega
                refine ⟨hbe, ?_⟩
                intro k hk
                rcases mem_chunk_split hids k hk with h' | h'
                · exact lout.herase k h' (by simp)
                · rw [hbe, sideIds_nil] at h'
                  cases h'
              · exact SideOK_adel_of hok hids lout.hframe lout.hnodup
              · intro k₁ k₂ hc₁ _
                exfalso
                obtain ⟨o, o', h1, h2, hne⟩ := hc₁
                obtain ⟨o₂, h₂₀, hbr⟩ := lout.htri k₁ o' h2
                rw [h1] at h₂₀
                injection h₂₀ with ho₂
                rcases hbr with h' | ⟨_, _, _, hh⟩
                · exact hne (h'.trans ho₂.symm)
                · simp at hh
              · intro k hk
                exact (sideIds_adel_sublist P (e :: l)).mem hk
        · -- the front order of the level was only partially filled
          have hv₁0 : vol₁ = 0 := by
            have h1 := lout.hvol'
            have h2 : ¬ 0 < vol₁ := fun h => hids₁ (lout.hempty h)
            omega
          have hvL : vol < levelVol reg ids := lout.hlt hids₁
          have hfv : f₁ = vol := by
            have := lout.hfmin
            omega
          refine ⟨reg₁, aset P ids₁ (e :: l), f₁, ?_, ?_⟩
          · rw [hrw]
            simp [hids₁]
          · refine ⟨?_, ?_, ?_, ?_, ?_, ?_, ?_, ?_, lout.hsum, ?_, ?_, ?_⟩
            · omega
            · intro k hk
              exact lout.hframe k (fun h => hk ((level_sublist_sideIds hids).mem h))
            · intro k o' h
              obtain ⟨o, h₀, hbr⟩ := lout.htri k o' h
              refine ⟨o, h₀, ?_⟩
              rcases hbr with h' | ⟨heq2, hpos, hlt2, hh⟩
              · exact Or.inl h'
              · refine Or.inr ⟨heq2, hpos, hlt2, ids₁, ?_, hh⟩
                have hkmem : k ∈ ids := (lout.hsuffix.sublist).mem (mem_of_head hh)
                obtain ⟨o₂, h₂, hp₂, _⟩ := hqmem k hkmem
                rw [h₀] at h₂
                injection h₂ with ho₂
                rw [show o.price = P by rw [ho₂]; exact hp₂]
                exact alookup_aset_self _ _ _
            · intro p q' h
              by_cases hp : p = P
              · subst hp
                rw [alookup_aset_self] at h
                injection h with hq'
                subst hq'
                exact ⟨ids, hids, lout.hsuffix⟩
              · rw [alookup_aset_ne _ hp] at h
                exact ⟨q', h, List.suffix_refl _⟩
            · intro p h
              have hp : p ≠ P := by
                intro he
                rw [he, hids] at h
                exact absurd h (by simp)
              rw [alookup_aset_ne _ hp]
              exact h
            · intro p q h hagr
              by_cases hp : p = P
              · subst hp
                rw [hids] at h
                injection h with hq
                subst hq
                obtain ⟨k₀, rest₀, hcons⟩ := List.exists_cons_of_ne_nil hqne
                have hmem₀ : k₀ ∈ ids := by rw [hcons]; exact List.mem_cons_self _ _
                exact absurd (hagr k₀ hmem₀) (lout.hhead k₀ rest₀ hcons hvz)
              · rw [alookup_aset_ne _ hp]
                exact h
            · intro p q h k hk
              by_cases hp : p = P
              · subst hp
                rw [hids] at h
                injection h with hq
                subst hq
                by_cases hk₁ : k ∈ ids₁
                · exact Or.inr ⟨ids₁, alookup_aset_self _ _ _, hk₁⟩
                · exact Or.inl (lout.herase k hk hk₁)
              · exact Or.inr ⟨q, by rw [alookup_aset_ne _ hp]; exact h, hk⟩
            · intro hBv
              exfalso
              omega
            · refine ⟨?_, ?_, lout.hnodup, ?_⟩
              · show ((aset P ids₁ (e :: l)).map Prod.fst).Nodup
                rw [map_fst_aset_of_some _ hids]
                exact hok.kNodup
              · exact hok.iNodup.sublist (sideIds_aset_sublist (lout.hsuffix.sublist) hids)
              · intro p q h
                by_cases hp : p = P
                · subst hp
                  rw [alookup_aset_self] at h
                  injection h with hq
                  subst hq
                  refine ⟨hids₁, ?_⟩
                  intro oid hm
                  obtain ⟨o', ho', hpos⟩ := lout.hkeep oid hm
                  refine ⟨o', ho', ?_, hpos⟩
                  obtain ⟨o, h₀, hbr⟩ := lout.htri oid o' ho'
                  have hmem2 : oid ∈ ids := (lout.hsuffix.sublist).mem hm
                  obtain ⟨o₂, h₂, hp₂, _⟩ := hqmem oid hmem2
                  rw [h₀] at h₂
                  injection h₂ with ho₂
                  rcases hbr with h' | ⟨heq2, _, _, _⟩
                  · rw [h', ho₂]
                    exact hp₂
                  · have : o'.price = o.price := by
                      rw [← heq2]
                    rw [this, ho₂]
                    exact hp₂
                · rw [alookup_aset_ne _ hp] at h
                  obtain ⟨hne2, hmem2⟩ := hok.levels p q h
                  refine ⟨hne2, ?_⟩
                  intro oid hm
                  obtain ⟨o, h₀, hp₀, hpos⟩ := hmem2 oid hm
                  have hnotin : oid ∉ ids := levels_disjoint hok.iNodup h hids hp oid hm
                  exact ⟨o, by rw [lout.hframe oid hnotin]; exact h₀, hp₀, hpos⟩
            · intro k₁ k₂ hc₁ hc₂
              have hhd : ∀ k, RegChanged reg reg₁ k → ids₁.head? = some k := by
                intro k hc
                obtain ⟨o, o', h1, h2, hne⟩ := hc
                obtain ⟨o₂, h₂₀, hbr⟩ := lout.htri k o' h2
                rw [h1] at h₂₀
                injection h₂₀ with ho₂
                rcases hbr with h' | ⟨_, _, _, hh⟩
                · exact absurd (h'.trans ho₂.symm) hne
                · exact hh
              have h1 := hhd k₁ hc₁
              have h2 := hhd k₂ hc₂
              rw [h1] at h2
              injection h2
            · intro k hk
              rcases sideIds_aset_subset (e :: l) k hk with h' | h'
              · exact (level_sublist_sideIds hids).mem ((lout.hsuffix.sublist).mem h')
              · exact h'
    · exact ⟨reg, book, 0, consume_stop reg book asc t hvz,
        BookOut_stop hok (by omega)⟩

/-- `_consume` never raises on a well-formed side. -/
theorem consume_total {reg : Registry} {book : SideBook} {vol : Int} {asc : Bool} {t : Int}
    (hok : SideOK reg book) (hv : 0 ≤ vol) :
    ∃ reg' book' f, consume reg book vol asc t = some (reg', book', f) ∧
      BookOut reg book vol reg' book' f :=
  consume_spec book.length le_rfl hok hv

/-! Lifting `BookOut` to the whole book state. -/

theorem opp_opp (s : Side) : opp (opp s) = s := by
  cases s <;> rfl

theorem side_eq_or (a b : Side) : a = b ∨ a = opp b := by
  cases a <;> cases b <;> simp [opp]

theorem nodup_append_right_sub {A B B' : List Nat} (h : (A ++ B).Nodup)
    (hs : ∀ x ∈ B', x ∈ B) (hB' : B'.Nodup) : (A ++ B').Nodup := by
  obtain ⟨hA, hB, hd⟩ := List.nodup_append.mp h
  exact List.nodup_append.mpr ⟨hA, hB', fun a ha hb => hd ha (hs a hb)⟩

theorem nodup_append_left_sub {A A' B : List Nat} (h : (A ++ B).Nodup)
    (hs : ∀ x ∈ A', x ∈ A) (hA' : A'.Nodup) : (A' ++ B).Nodup := by
  obtain ⟨hA, hB, hd⟩ := List.nodup_append.mp h
  exact List.nodup_append.mpr ⟨hA', hB, fun a ha hb => hd (hs a ha) hb⟩

/-- The well-formedness invariant restricted to one side. -/
theorem WF.sideOK {st : OrderBook} (hwf : WF st) (s : Side) :
    SideOK st.orders (sideBook st s) := by
  refine ⟨?_, ?_, hwf.regNodup, ?_⟩
  · cases s
    · exact hwf.bidNodup
    · exact hwf.askNodup
  · cases s
    · exact hwf.idsNodup.of_append_left
    · exact hwf.idsNodup.of_append_right
  · intro p q h
    obtain ⟨h1, h2⟩ := hwf.levelsOK s p q h
    refine ⟨h1, ?_⟩
    intro oid hm
    obtain ⟨o, ha, hside, hprice⟩ := h2 oid hm
    exact ⟨o, ha, hprice, (hwf.ordersOK oid o ha).2.1⟩

/-- Ids resting on one side never rest on the other. -/
theorem WF.ids_disjoint {st : OrderBook} (hwf : WF st) (s : Side) :
    ∀ k ∈ sideIds (sideBook st s), k ∉ sideIds (sideBook st (opp s)) := by
  obtain ⟨_, _, hd⟩ := List.nodup_append.mp hwf.idsNodup
  cases s
  · exact fun k hk hk' => hd hk hk'
  · exact fun k hk hk' => hd hk' hk

/-- Rebuilding the whole-book invariant after `_consume` ran on the
side `s`. -/
theorem WF_after_consume {st st' : OrderBook} {s : Side} {vol f : Int}
    (hwf : WF st)
    (bout : BookOut st.orders (sideBook st s) vol st'.orders (sideBook st' s) f)
    (hsame : sideBook st' (opp s) = sideBook st (opp s)) :
    WF st' := by
  have hunch : ∀ k ∈ sideIds (sideBook st (opp s)), alookup k st'.orders = alookup k st.orders := by
    intro k hk
    apply bout.bframe k
    intro hk'
    exact hwf.ids_disjoint (opp s) k hk (by rw [opp_opp]; exact hk')
  have hside' : ∀ k o', alookup k st'.orders = some o' → ∃ o, alookup k st.orders = some o ∧
      o'.id = o.id ∧ o'.side = o.side ∧ o'.price = o.price ∧ o'.end_tick = o.end_tick ∧
      0 < o'.volume := by
    intro k o' h
    obtain ⟨o, h₀, hbr⟩ := bout.btri k o' h
    rcases hbr with h' | ⟨heq2, hpos, _, _⟩
    · exact ⟨o, h₀, by rw [h'], by rw [h'], by rw [h'], by rw [h'],
        by rw [h']; exact (hwf.ordersOK k o h₀).2.1⟩
    · refine ⟨o, h₀, ?_, ?_, ?_, ?_, hpos⟩ <;> rw [← heq2]
  refine ⟨bout.bok.rNodup, ?_, ?_, ?_, ?_, ?_⟩
  · -- bids nodup
    cases s
    · exact bout.bok.kNodup
    · have : st'.bids = st.bids := hsame
      rw [this]
      exact hwf.bidNodup
  · -- asks nodup
    cases s
    · have : st'.asks = st.asks := hsame
      rw [this]
      exact hwf.askNodup
    · exact bout.bok.kNodup
  · -- all resting ids nodup
    cases s
    · have hb : st'.asks = st.asks := hsame
      rw [hb]
      exact nodup_append_left_sub hwf.idsNodup bout.bids_sub bout.bok.iNodup
    · have hb : st'.bids = st.bids := hsame
      rw [hb]
      exact nodup_append_right_sub hwf.idsNodup bout.bids_sub bout.bok.iNodup
  · -- levels
    intro s' p q h
    rcases side_eq_or s' s with rfl | rfl
    · obtain ⟨h1, h2⟩ := bout.bok.levels p q h
      refine ⟨h1, ?_⟩
      intro oid hm
      obtain ⟨o', ha', hprice, hpos⟩ := h2 oid hm
      obtain ⟨q₀, hq₀, hsuf⟩ := bout.blev_suffix p q h
      obtain ⟨_, h2₀⟩ := hwf.levelsOK s' p q₀ hq₀
      obtain ⟨o₀, ha₀, hside₀, _⟩ := h2₀ oid (hsuf.sublist.mem hm)
      obtain ⟨o₁, ha₁, _, hsideeq, _, _, _⟩ := hside' oid o' ha'
      rw [ha₀] at ha₁
      injection ha₁ with ho₁
      exact ⟨o', ha', by rw [hsideeq, ← ho₁]; exact hside₀, hprice⟩
    · rw [hsame] at h
      obtain ⟨h1, h2⟩ := hwf.levelsOK (opp s) p q h
      refine ⟨h1, ?_⟩
      intro oid hm
      obtain ⟨o, ha, hside, hprice⟩ := h2 oid hm
      refine ⟨o, ?_, hside, hprice⟩
      rw [hunch oid (mem_sideIds_of_alookup h hm)]
      exact ha
  · -- registered orders
    intro oid o' h
    obtain ⟨o, h₀, hbr⟩ := bout.btri oid o' h
    obtain ⟨hid, hvol₀, het, q₀, hq₀, hmem₀⟩ := hwf.ordersOK oid o h₀
    rcases hbr with h' | ⟨heq2, hpos, hlt2, q', hq', hhd⟩
    · subst h'
      refine ⟨hid, hvol₀, het, ?_⟩
      rcases side_eq_or o'.side s with hss | hss
      · rw [hss] at hq₀ ⊢
        rcases bout.blev_mem o'.price q₀ hq₀ oid hmem₀ with hnone | ⟨q₁, hq₁, hm₁⟩
        · rw [h] at hnone
          cases hnone
        · exact ⟨q₁, hq₁, hm₁⟩
      · rw [hss] at hq₀ ⊢
        rw [hsame]
        exact ⟨q₀, hq₀, hmem₀⟩
    · have hids : o'.id = o.id := by rw [← heq2]
      have hsideeq : o'.side = o.side := by rw [← heq2]
      have hpr : o'.price = o.price := by rw [← heq2]
      have hete : o'.end_tick = o.end_tick := by rw [← heq2]
      refine ⟨by rw [hids]; exact hid, hpos, by rw [hete]; exact het, ?_⟩
      have hmside : o.side = s := by
        rcases side_eq_or o.side s with hss | hss
        · exact hss
        · exfalso
          have hkU : oid ∈ sideIds (sideBook st (opp s)) := by
            rw [← hss]
            exact mem_sideIds_of_alookup hq₀ hmem₀
          have := hunch oid hkU
          rw [h, h₀] at this
          injection this with hoo
          rw [hoo] at hlt2
          omega
      rw [hsideeq, hmside, hpr]
      exact ⟨q', hq', mem_of_head hhd⟩

/-- Main specification of `OrderBook.match_market`: on a well-formed
book with a non-negative request it never raises, preserves the
invariant, leaves the same side of the book untouched, and its effect
on the opposite side satisfies `BookOut`. -/
theorem match_market_spec {st : OrderBook} {side : Side} {vol t : Int}
    (hwf : WF st) (hv : 0 ≤ vol) :
    ∃ st' f, match_market st side vol t = some (st', f) ∧ WF st' ∧
      sideBook st' side = sideBook st side ∧
      BookOut st.orders (sideBook st (opp side)) vol st'.orders (sideBook st' (opp side)) f := by
  cases side with
  | buy =>
    obtain ⟨reg', book', f, hc, bout⟩ :=
      @consume_total st.orders st.asks vol true t (hwf.sideOK .sell) hv
    refine ⟨{ st with orders := reg', asks := book' }, f, ?_, ?_, rfl, bout⟩
    · have hc' : consume st.orders st.asks vol true t = some (reg', book', f) := hc
      simp [match_market, hc']
    · exact WF_after_consume (s := .sell) hwf bout rfl
  | sell =>
    obtain ⟨reg', book', f, hc, bout⟩ :=
      @consume_total st.orders st.bids vol false t (hwf.sideOK .buy) hv
    refine ⟨{ st with orders := reg', bids := book' }, f, ?_, ?_, rfl, bout⟩
    · have hc' : consume st.orders st.bids vol false t = some (reg', book', f) := hc
      simp [match_market, hc']
    · exact WF_after_consume (s := .buy) hwf bout rfl

/-! Lemmas about `add_limit`. -/

theorem alookup_append_of_some {α β : Type} [DecidableEq α] {k : α} {v : β}
    {l₁ : List (α × β)} (l₂ : List (α × β)) (h : alookup k l₁ = some v) :
    alookup k (l₁ ++ l₂) = some v := by
  induction l₁ with
  | nil => simp [alookup] at h
  | cons e l ih =>
    obtain ⟨k₀, v₀⟩ := e
    by_cases hk : k₀ = k
    · simp only [alookup, if_pos hk] at h ⊢
      exact h
    · simp only [alookup, if_neg hk] at h ⊢
      exact ih h

theorem alookup_append_of_none {α β : Type} [DecidableEq α] {k : α}
    {l₁ : List (α × β)} (l₂ : List (α × β)) (h : alookup k l₁ = none) :
    alookup k (l₁ ++ l₂) = alookup k l₂ := by
  induction l₁ with
  | nil => simp
  | cons e l ih =>
    obtain ⟨k₀, v₀⟩ := e
    by_cases hk : k₀ = k
    · simp only [alookup, if_pos hk] at h
      cases h
    · simp only [alookup, if_neg hk] at h ⊢
      exact ih h

theorem add_limit_orders (st : OrderBook) (o : LimitOrder) :
    (add_limit st o).orders = aset o.id o st.orders := by
  cases hs : o.side <;> simp [add_limit, hs]

theorem add_limit_side_eq (st : OrderBook) (o : LimitOrder) :
    sideBook (add_limit st o) o.side = pushLevel (sideBook st o.side) o.price o.id := by
  cases hs : o.side <;> simp [add_limit, hs, sideBook]

theorem add_limit_side_ne (st : OrderBook) (o : LimitOrder) (s : Side) (h : s ≠ o.side) :
    sideBook (add_limit st o) s = sideBook st s := by
  cases hs : o.side <;> cases s <;> simp [add_limit, hs, sideBook] <;> simp [hs] at h

theorem pushLevel_self_some {b : SideBook} {p : ℚ} {q : List Nat} (oid : Nat)
    (h : alookup p b = some q) :
    alookup p (pushLevel b p oid) = some (q ++ [oid]) := by
  simp [pushLevel, h, alookup_aset_self]

theorem pushLevel_self_none {b : SideBook} {p : ℚ} (oid : Nat) (h : alookup p b = none) :
    alookup p (pushLevel b p oid) = some [oid] := by
  simp only [pushLevel, h]
  rw [alookup_append_of_none _ h]
  simp [alookup]

theorem pushLevel_ne {b : SideBook} {p p' : ℚ} (oid : Nat) (h : p' ≠ p) :
    alookup p' (pushLevel b p oid) = alookup p' b := by
  cases hb : alookup p b with
  | none =>
    simp only [pushLevel, hb]
    cases hb' : alookup p' b with
    | none =>
      rw [alookup_append_of_none _ hb']
      have hpp : ¬ (p = p') := fun he => h he.symm
      simp [alookup, hpp]
    | some q => exact alookup_append_of_some _ hb'
  | some q =>
    simp only [pushLevel, hb]
    exact alookup_aset_ne _ h b

theorem sideIds_append (b₁ b₂ : SideBook) :
    sideIds (b₁ ++ b₂) = sideIds b₁ ++ sideIds b₂ := by
  simp [sideIds]

theorem sideIds_aset_append {b : SideBook} {p : ℚ} {q : List Nat} (q' : List Nat) :
    ∀ (hb : alookup p b = some q), ∃ A B, sideIds b = A ++ (q ++ B) ∧
      sideIds (aset p q' b) = A ++ (q' ++ B) := by
  induction b with
  | nil => intro h; simp [alookup] at h
  | cons e b ih =>
    obtain ⟨p₀, q₀⟩ := e
    intro h
    by_cases hp : p₀ = p
    · simp only [alookup, if_pos hp] at h
      obtain rfl : q₀ = q := by injection h
      refine ⟨[], sideIds b, ?_, ?_⟩
      · simp [sideIds_cons]
      · simp only [aset, if_pos hp, sideIds_cons]
        simp
    · simp only [alookup, if_neg hp] at h
      obtain ⟨A, B, h1, h2⟩ := ih h
      refine ⟨q₀ ++ A, B, ?_, ?_⟩
      · rw [sideIds_cons, h1]
        simp
      · simp only [aset, if_neg hp, sideIds_cons, h2]
        simp

theorem nodup_append_singleton {l : List Nat} {x : Nat} (h : l.Nodup) (hx : x ∉ l) :
    (l ++ [x]).Nodup := by
  refine List.nodup_append.mpr ⟨h, List.nodup_singleton x, ?_⟩
  intro a ha hb
  rw [List.mem_singleton] at hb
  subst hb
  exact hx ha

theorem nodup_middle_insert {A Q B : List Nat} {x : Nat} (h : (A ++ (Q ++ B)).Nodup)
    (hx : x ∉ A ++ (Q ++ B)) : (A ++ ((Q ++ [x]) ++ B)).Nodup := by
  have hperm : A ++ ((Q ++ [x]) ++ B) = (A ++ Q) ++ (x :: B) := by
    simp
  rw [hperm]
  have hperm2 : List.Perm ((A ++ Q) ++ (x :: B)) (x :: ((A ++ Q) ++ B)) := List.perm_middle
  rw [hperm2.nodup_iff]
  refine List.nodup_cons.mpr ⟨?_, by simpa using h⟩
  simpa using hx

theorem sideIds_pushLevel_nodup {b : SideBook} {p : ℚ} {oid : Nat}
    (hn : (sideIds b).Nodup) (hfresh : oid ∉ sideIds b) :
    (sideIds (pushLevel b p oid)).Nodup := by
  cases hb : alookup p b with
  | none =>
    simp only [pushLevel, hb]
    rw [sideIds_append]
    have : sideIds [(p, [oid])] = [oid] := rfl
    rw [this]
    exact nodup_append_singleton hn hfresh
  | some q =>
    simp only [pushLevel, hb]
    obtain ⟨A, B, h1, h2⟩ := sideIds_aset_append (q ++ [oid]) hb
    rw [h2]
    rw [h1] at hn hfresh
    exact nodup_middle_insert hn hfresh

theorem sideIds_pushLevel_sub {b : SideBook} {p : ℚ} {oid : Nat} :
    ∀ k ∈ sideIds (pushLevel b p oid), k = oid ∨ k ∈ sideIds b := by
  intro k hk
  cases hb : alookup p b with
  | none =>
    simp only [pushLevel, hb] at hk
    rw [sideIds_append] at hk
    rcases List.mem_append.mp hk with h | h
    · exact Or.inr h
    · have : sideIds [(p, [oid])] = [oid] := rfl
      rw [this, List.mem_singleton] at h
      exact Or.inl h
  | some q =>
    simp only [pushLevel, hb] at hk
    obtain ⟨A, B, h1, h2⟩ := sideIds_aset_append (q ++ [oid]) hb
    rw [h2] at hk
    rw [h1]
    simp only [List.mem_append, List.mem_singleton] at hk ⊢
    tauto

theorem mem_sideIds_pushLevel {b : SideBook} {p : ℚ} {oid : Nat} {k : Nat} :
    k ∈ sideIds b → k ∈ sideIds (pushLevel b p oid) := by
  intro hk
  cases hb : alookup p b with
  | none =>
    simp only [pushLevel, hb]
    rw [sideIds_append]
    exact List.mem_append_left _ hk
  | some q =>
    simp only [pushLevel, hb]
    obtain ⟨A, B, h1, h2⟩ := sideIds_aset_append (q ++ [oid]) hb
    rw [h2]
    rw [h1] at hk
    simp only [List.mem_append, List.mem_singleton] at hk ⊢
    tauto

/-- Every id resting in a well-formed book is a registry key. -/
theorem WF.mem_reg_of_sideIds {st : OrderBook} (hwf : WF st) {s : Side} {k : Nat}
    (hk : k ∈ sideIds (sideBook st s)) : alookup k st.orders ≠ none := by
  rw [sideIds] at hk
  obtain ⟨q, hq, hkq⟩ := List.mem_flatten.mp hk
  obtain ⟨⟨p, q₀⟩, hmem, hq₀⟩ := List.mem_map.mp hq
  subst hq₀
  have hl : alookup p (sideBook st s) = some q₀ := by
    have hkeys : ((sideBook st s).map Prod.fst).Nodup := by
      cases s
      · exact hwf.bidNodup
      · exact hwf.askNodup
    exact alookup_of_mem_nodup hkeys hmem
  obtain ⟨_, h2⟩ := hwf.levelsOK s p q₀ hl
  obtain ⟨o, ho, _, _⟩ := h2 k hkq
  rw [ho]
  simp

/-- `add_limit` of a fresh, positive-volume, still-open order preserves
the book invariant. -/
theorem WF_add_limit {st : OrderBook} {o : LimitOrder} (hwf : WF st)
    (hfresh : alookup o.id st.orders = none) (hvol : 0 < o.volume)
    (hend : o.end_tick = none) : WF (add_limit st o) := by
  have hfreshIds : ∀ s, o.id ∉ sideIds (sideBook st s) := by
    intro s hk
    exact hwf.mem_reg_of_sideIds hk hfresh
  have horders := add_limit_orders st o
  have hlook : ∀ k, k ≠ o.id → alookup k (add_limit st o).orders = alookup k st.orders := by
    intro k hk
    rw [horders, alookup_aset_ne _ hk]
  have hlookself : alookup o.id (add_limit st o).orders = some o := by
    rw [horders]
    exact alookup_aset_self _ _ _
  have hkeysPush : ∀ (b : SideBook) p, (keys b).Nodup → (keys (pushLevel b p o.id)).Nodup := by
    intro b p hn
    cases hb : alookup p b with
    | none =>
      show ((pushLevel b p o.id).map Prod.fst).Nodup
      simp only [pushLevel, hb, List.map_append]
      refine List.nodup_append.mpr ⟨hn, by simp, ?_⟩
      intro a ha hb'
      simp at hb'
      subst hb'
      exact ((alookup_eq_none _ _).mp hb) ha
    | some q =>
      show ((pushLevel b p o.id).map Prod.fst).Nodup
      simp only [pushLevel, hb]
      rw [map_fst_aset_of_some _ hb]
      exact hn
  have hmemq : ∀ (k : Nat), k ∈ sideIds (sideBook st o.side) → k ≠ o.id := by
    intro k hk he
    subst he
    exact hfreshIds o.side hk
  refine ⟨?_, ?_, ?_, ?_, ?_, ?_⟩
  · rw [horders]
    show ((aset o.id o st.orders).map Prod.fst).Nodup
    rw [map_fst_aset_of_none _ hfresh]
    refine List.nodup_append.mpr ⟨hwf.regNodup, by simp, ?_⟩
    intro a ha hb'
    simp at hb'
    subst hb'
    exact ((alookup_eq_none _ _).mp hfresh) ha
  · cases hs : o.side
    · have h2 : (add_limit st o).bids = pushLevel st.bids o.price o.id := by
        have h := add_limit_side_eq st o
        rw [hs] at h
        exact h
      rw [show keys (add_limit st o).bids = keys (pushLevel st.bids o.price o.id) by rw [h2]]
      exact hkeysPush st.bids o.price hwf.bidNodup
    · have h2 : (add_limit st o).bids = st.bids :=
        add_limit_side_ne st o .buy (by rw [hs]; simp)
      rw [show keys (add_limit st o).bids = keys st.bids by rw [h2]]
      exact hwf.bidNodup
  · cases hs : o.side
    · have h2 : (add_limit st o).asks = st.asks :=
        add_limit_side_ne st o .sell (by rw [hs]; simp)
      rw [show keys (add_limit st o).asks = keys st.asks by rw [h2]]
      exact hwf.askNodup
    · have h2 : (add_limit st o).asks = pushLevel st.asks o.price o.id := by
        have h := add_limit_side_eq st o
        rw [hs] at h
        exact h
      rw [show keys (add_limit st o).asks = keys (pushLevel st.asks o.price o.id) by rw [h2]]
      exact hkeysPush st.asks o.price hwf.askNodup
  · cases hs : o.side
    · have h1 : (add_limit st o).bids = pushLevel st.bids o.price o.id := by
        have h := add_limit_side_eq st o
        rw [hs] at h
        exact h
      have h2 : (add_limit st o).asks = st.asks :=
        add_limit_side_ne st o .sell (by rw [hs]; simp)
      rw [h1, h2]
      refine List.nodup_append.mpr ⟨?_, hwf.idsNodup.of_append_right, ?_⟩
      · exact sideIds_pushLevel_nodup hwf.idsNodup.of_append_left (hfreshIds Side.buy)
      · intro a ha hb'
        rcases sideIds_pushLevel_sub a ha with rfl | ha'
        · exact hfreshIds Side.sell hb'
        · exact (List.nodup_append.mp hwf.idsNodup).2.2 ha' hb'
    · have h1 : (add_limit st o).bids = st.bids :=
        add_limit_side_ne st o .buy (by rw [hs]; simp)
      have h2 : (add_limit st o).asks = pushLevel st.asks o.price o.id := by
        have h := add_limit_side_eq st o
        rw [hs] at h
        exact h
      rw [h1, h2]
      refine List.nodup_append.mpr ⟨hwf.idsNodup.of_append_left, ?_, ?_⟩
      · exact sideIds_pushLevel_nodup hwf.idsNodup.of_append_right (hfreshIds Side.sell)
      · intro a ha hb'
        rcases sideIds_pushLevel_sub a hb' with rfl | hb''
        · exact hfreshIds Side.buy ha
        · exact (List.nodup_append.mp hwf.idsNodup).2.2 ha hb''
  · -- levels
    intro s p q h
    by_cases hso : s = o.side
    · subst hso
      rw [add_limit_side_eq st o] at h
      by_cases hp : p = o.price
      · subst hp
        cases hb : alookup o.price (sideBook st o.side) with
        | none =>
          rw [pushLevel_self_none _ hb] at h
          injection h with hq
          subst hq
          refine ⟨by simp, ?_⟩
          intro k hk
          rw [List.mem_singleton] at hk
          subst hk
          exact ⟨o, hlookself, rfl, rfl⟩
        | some q₀ =>
          rw [pushLevel_self_some _ hb] at h
          injection h with hq
          subst hq
          refine ⟨by simp, ?_⟩
          intro k hk
          rcases List.mem_append.mp hk with hk' | hk'
          · obtain ⟨_, h2⟩ := hwf.levelsOK _ _ q₀ hb
            obtain ⟨o₀, ho₀, hs₀, hp₀⟩ := h2 k hk'
            have hne : k ≠ o.id := hmemq k (mem_sideIds_of_alookup hb hk')
            exact ⟨o₀, by rw [hlook k hne]; exact ho₀, hs₀, hp₀⟩
          · rw [List.mem_singleton] at hk'
            subst hk'
            exact ⟨o, hlookself, rfl, rfl⟩
      · rw [pushLevel_ne _ hp] at h
        obtain ⟨h1, h2⟩ := hwf.levelsOK _ _ q h
        refine ⟨h1, ?_⟩
        intro k hk
        obtain ⟨o₀, ho₀, hs₀, hp₀⟩ := h2 k hk
        have hne : k ≠ o.id := hmemq k (mem_sideIds_of_alookup h hk)
        exact ⟨o₀, by rw [hlook k hne]; exact ho₀, hs₀, hp₀⟩
    · rw [add_limit_side_ne st o s hso] at h
      obtain ⟨h1, h2⟩ := hwf.levelsOK s p q h
      refine ⟨h1, ?_⟩
      intro k hk
      obtain ⟨o₀, ho₀, hs₀, hp₀⟩ := h2 k hk
      have hne : k ≠ o.id := by
        intro he
        subst he
        exact hfreshIds s (mem_sideIds_of_alookup h hk)
      exact ⟨o₀, by rw [hlook k hne]; exact ho₀, hs₀, hp₀⟩
  · -- registered orders
    intro oid₂ o₂ h
    by_cases hk : oid₂ = o.id
    · subst hk
      rw [hlookself] at h
      injection h with ho₂
      subst ho₂
      refine ⟨rfl, hvol, hend, ?_⟩
      rw [add_limit_side_eq st o]
      cases hb : alookup o.price (sideBook st o.side) with
      | none => exact ⟨[o.id], pushLevel_self_none _ hb, by simp⟩
      | some q₀ =>
        exact ⟨q₀ ++ [o.id], pushLevel_self_some _ hb, by simp⟩
    · rw [hlook oid₂ hk] at h
      obtain ⟨hid₂, hvol₂, hend₂, q₀, hq₀, hmem₂⟩ := hwf.ordersOK oid₂ o₂ h
      refine ⟨hid₂, hvol₂, hend₂, ?_⟩
      by_cases hs₂ : o₂.side = o.side
      · rw [hs₂, add_limit_side_eq st o]
        by_cases hp₂ : o₂.price = o.price
        · rw [hs₂] at hq₀
          rw [hp₂] at hq₀ ⊢
          exact ⟨q₀ ++ [o.id], pushLevel_self_some _ hq₀,
            List.mem_append_left _ hmem₂⟩
        · rw [hs₂] at hq₀
          exact ⟨q₀, by rw [pushLevel_ne _ hp₂]; exact hq₀, hmem₂⟩
      · rw [add_limit_side_ne st o o₂.side hs₂]
        exact ⟨q₀, hq₀, hmem₂⟩

/-- `add_limit` of a fresh order grows the total registered volume by
exactly that order's volume. -/
theorem regVol_add_limit {st : OrderBook} {o : LimitOrder}
    (hfresh : alookup o.id st.orders = none) :
    regVol (add_limit st o).orders = regVol st.orders + o.volume := by
  rw [add_limit_orders]
  exact regVol_aset_none _ hfresh

/-! Lemmas about order removal (`cancel_random` / `remove_by_flag`). -/

theorem lrem_sublist {α : Type} [DecidableEq α] (x : α) :
    ∀ l : List α, (lrem x l).Sublist l := by
  intro l
  induction l with
  | nil => simp [lrem]
  | cons y l ih =>
    by_cases hy : y = x
    · simp [lrem, hy]
    · simp only [lrem, if_neg hy]
      exact ih.cons₂ _

theorem mem_lrem_of_ne {α : Type} [DecidableEq α] {k x : α} (h : k ≠ x) :
    ∀ l : List α, (k ∈ lrem x l ↔ k ∈ l) := by
  intro l
  induction l with
  | nil => simp [lrem]
  | cons y l ih =>
    by_cases hy : y = x
    · subst hy
      simp only [lrem, if_pos rfl]
      constructor
      · exact fun hm => List.mem_cons_of_mem _ hm
      · intro hm
        rcases List.mem_cons.mp hm with h' | h'
        · exact absurd h' h
        · exact h'
    · simp only [lrem, if_neg hy]
      constructor
      · intro hm
        rcases List.mem_cons.mp hm with h' | h'
        · exact h' ▸ List.mem_cons_self _ _
        · exact List.mem_cons_of_mem _ (ih.mp h')
      · intro hm
        rcases List.mem_cons.mp hm with h' | h'
        · exact h' ▸ List.mem_cons_self _ _
        · exact List.mem_cons_of_mem _ (ih.mpr h')

theorem not_mem_lrem_self {α : Type} [DecidableEq α] {x : α} :
    ∀ {l : List α}, l.Nodup → x ∉ lrem x l := by
  intro l
  induction l with
  | nil => intro _; simp [lrem]
  | cons y l ih =>
    intro hn
    obtain ⟨hy, hn'⟩ := List.nodup_cons.mp hn
    by_cases hyx : y = x
    · subst hyx
      simp only [lrem, if_pos rfl]
      exact hy
    · simp only [lrem, if_neg hyx]
      intro hm
      rcases List.mem_cons.mp hm with h' | h'
      · exact hyx h'.symm
      · exact ih hn' h'

/-- Rebuilding the whole-book invariant after removing one active
order from its queue and the registry. -/
theorem WF_remove_entry {st st' : OrderBook} {oid : Nat} {o : LimitOrder} (hwf : WF st)
    (ho : alookup oid st.orders = some o)
    {q : List Nat} (hq : alookup o.price (sideBook st o.side) = some q)
    (horders : st'.orders = adel oid st.orders)
    (hb' : sideBook st' o.side = (if lrem oid q = [] then adel o.price (sideBook st o.side)
        else aset o.price (lrem oid q) (sideBook st o.side)))
    (hsame : sideBook st' (opp o.side) = sideBook st (opp o.side)) :
    WF st' := by
  obtain ⟨hid, hvol, hend, q₀, hq₀, hm₀⟩ := hwf.ordersOK oid o ho
  rw [hq₀] at hq
  injection hq with hq
  subst hq
  have hkN : ((sideBook st o.side).map Prod.fst).Nodup := by
    cases hsd : o.side
    · exact hwf.bidNodup
    · exact hwf.askNodup
  have hqN : q₀.Nodup := ((hwf.sideOK o.side).iNodup).sublist (level_sublist_sideIds hq₀)
  have hnotq' : oid ∉ lrem oid q₀ := not_mem_lrem_self hqN
  have hlookne : ∀ k, k ≠ oid → alookup k st'.orders = alookup k st.orders := by
    intro k hk
    rw [horders, alookup_adel_ne hk]
  have hlookself : alookup oid st'.orders = none := by
    rw [horders]
    exact alookup_adel_self hwf.regNodup
  have hnotother : ∀ p₂ q₂, alookup p₂ (sideBook st o.side) = some q₂ → p₂ ≠ o.price →
      oid ∉ q₂ := by
    intro p₂ q₂ h₂ hne
    exact levels_disjoint (hwf.sideOK o.side).iNodup hq₀ h₂ (fun he => hne he.symm) oid hm₀
  have hnotopp : oid ∉ sideIds (sideBook st (opp o.side)) :=
    hwf.ids_disjoint o.side oid (mem_sideIds_of_alookup hq₀ hm₀)
  have hlookb' : ∀ p, p ≠ o.price → alookup p (sideBook st' o.side) =
      alookup p (sideBook st o.side) := by
    intro p hp
    rw [hb']
    by_cases hq' : lrem oid q₀ = []
    · rw [if_pos hq', alookup_adel_ne hp]
    · rw [if_neg hq', alookup_aset_ne _ hp]
  have hsub' : ∀ k ∈ sideIds (sideBook st' o.side), k ∈ sideIds (sideBook st o.side) := by
    intro k hk
    rw [hb'] at hk
    by_cases hq' : lrem oid q₀ = []
    · rw [if_pos hq'] at hk
      exact (sideIds_adel_sublist _ _).mem hk
    · rw [if_neg hq'] at hk
      rcases sideIds_aset_subset _ k hk with h' | h'
      · exact (level_sublist_sideIds hq₀).mem ((lrem_sublist oid q₀).mem h')
      · exact h'
  have hnodup' : (sideIds (sideBook st' o.side)).Nodup := by
    rw [hb']
    by_cases hq' : lrem oid q₀ = []
    · rw [if_pos hq']
      exact ((hwf.sideOK o.side).iNodup).sublist (sideIds_adel_sublist _ _)
    · rw [if_neg hq']
      exact ((hwf.sideOK o.side).iNodup).sublist
        (sideIds_aset_sublist (lrem_sublist oid q₀) hq₀)
  have hkeys' : ((sideBook st' o.side).map Prod.fst).Nodup := by
    rw [hb']
    by_cases hq' : lrem oid q₀ = []
    · rw [if_pos hq']
      exact hkN.sublist (map_fst_adel_sublist _ _)
    · rw [if_neg hq']
      rw [map_fst_aset_of_some _ hq₀]
      exact hkN
  refine ⟨?_, ?_, ?_, ?_, ?_, ?_⟩
  · rw [horders]
    exact hwf.regNodup.sublist (map_fst_adel_sublist _ _)
  · cases hsd : o.side
    · have h1 : sideBook st' Side.buy = sideBook st' o.side := by rw [hsd]
      show (keys st'.bids).Nodup
      rw [show keys st'.bids = (sideBook st' o.side).map Prod.fst by rw [← h1]; rfl]
      exact hkeys'
    · have h1 : sideBook st' Side.buy = sideBook st Side.buy := by
        have := hsame
        rw [hsd] at this
        exact this
      show (keys st'.bids).Nodup
      rw [show keys st'.bids = keys st.bids by rw [show st'.bids = st.bids from h1]]
      exact hwf.bidNodup
  · cases hsd : o.side
    · have h1 : sideBook st' Side.sell = sideBook st Side.sell := by
        have := hsame
        rw [hsd] at this
        exact this
      show (keys st'.asks).Nodup
      rw [show keys st'.asks = keys st.asks by rw [show st'.asks = st.asks from h1]]
      exact hwf.askNodup
    · have h1 : sideBook st' Side.sell = sideBook st' o.side := by rw [hsd]
      show (keys st'.asks).Nodup
      rw [show keys st'.asks = (sideBook st' o.side).map Prod.fst by rw [← h1]; rfl]
      exact hkeys'
  · cases hsd : o.side
    · have h1 : st'.asks = st.asks := by
        have := hsame
        rw [hsd] at this
        exact this
      have h2 : sideIds st'.bids = sideIds (sideBook st' o.side) := by
        rw [hsd]
        rfl
      rw [h1]
      have hsubB : ∀ k ∈ sideIds st'.bids, k ∈ sideIds st.bids := by
        intro k hk
        rw [h2] at hk
        have := hsub' k hk
        rw [hsd] at this
        exact this
      have hndB : (sideIds st'.bids).Nodup := by
        rw [h2]
        exact hnodup'
      exact nodup_append_left_sub hwf.idsNodup hsubB hndB
    · have h1 : st'.bids = st.bids := by
        have := hsame
        rw [hsd] at this
        exact this
      have h2 : sideIds st'.asks = sideIds (sideBook st' o.side) := by
        rw [hsd]
        rfl
      rw [h1]
      have hsubA : ∀ k ∈ sideIds st'.asks, k ∈ sideIds st.asks := by
        intro k hk
        rw [h2] at hk
        have := hsub' k hk
        rw [hsd] at this
        exact this
      have hndA : (sideIds st'.asks).Nodup := by
        rw [h2]
        exact hnodup'
      exact nodup_append_right_sub hwf.idsNodup hsubA hndA
  · -- levels
    intro s₂ p₂ q₂ h₂
    rcases side_eq_or s₂ o.side with rfl | rfl
    · by_cases hp₂ : p₂ = o.price
      · subst hp₂
        rw [hb'] at h₂
        by_cases hq' : lrem oid q₀ = []
        · rw [if_pos hq', alookup_adel_self hkN] at h₂
          cases h₂
        · rw [if_neg hq', alookup_aset_self] at h₂
          injection h₂ with h₂
          subst h₂
          refine ⟨hq', ?_⟩
          intro k hk
          have hkq : k ∈ q₀ := (lrem_sublist oid q₀).mem hk
          have hkne : k ≠ oid := fun he => hnotq' (he ▸ hk)
          obtain ⟨_, hmm⟩ := hwf.levelsOK o.side o.price q₀ hq₀
          obtain ⟨o₂, ho₂, hs₂, hpr₂⟩ := hmm k hkq
          exact ⟨o₂, by rw [hlookne k hkne]; exact ho₂, hs₂, hpr₂⟩
      · rw [hlookb' p₂ hp₂] at h₂
        obtain ⟨h1, hmm⟩ := hwf.levelsOK o.side p₂ q₂ h₂
        refine ⟨h1, ?_⟩
        intro k hk
        have hkne : k ≠ oid := fun he => hnotother p₂ q₂ h₂ hp₂ (he ▸ hk)
        obtain ⟨o₂, ho₂, hs₂, hpr₂⟩ := hmm k hk
        exact ⟨o₂, by rw [hlookne k hkne]; exact ho₂, hs₂, hpr₂⟩
    · rw [hsame] at h₂
      obtain ⟨h1, hmm⟩ := hwf.levelsOK (opp o.side) p₂ q₂ h₂
      refine ⟨h1, ?_⟩
      intro k hk
      have hkne : k ≠ oid := fun he => hnotopp (he ▸ mem_sideIds_of_alookup h₂ hk)
      obtain ⟨o₂, ho₂, hs₂, hpr₂⟩ := hmm k hk
      exact ⟨o₂, by rw [hlookne k hkne]; exact ho₂, hs₂, hpr₂⟩
  · -- registered orders
    intro k o₂ h₂
    have hkne : k ≠ oid := by
      intro he
      subst he
      rw [hlookself] at h₂
      cases h₂
    rw [hlookne k hkne] at h₂
    obtain ⟨hid₂, hvol₂, hend₂, q₂, hq₂, hm₂⟩ := hwf.ordersOK k o₂ h₂
    refine ⟨hid₂, hvol₂, hend₂, ?_⟩
    rcases side_eq_or o₂.side o.side with hss | hss
    · by_cases hp₂ : o₂.price = o.price
      · rw [hss, hp₂] at hq₂
        rw [hq₀] at hq₂
        injection hq₂ with hqq
        subst hqq
        have hk' : k ∈ lrem oid q₀ := (mem_lrem_of_ne hkne q₀).mpr hm₂
        have hne' : lrem oid q₀ ≠ [] := List.ne_nil_of_mem hk'
        rw [hss, hp₂, hb', if_neg hne']
        exact ⟨lrem oid q₀, alookup_aset_self _ _ _, hk'⟩
      · rw [hss] at hq₂ ⊢
        rw [hlookb' o₂.price hp₂]
        exact ⟨q₂, hq₂, hm₂⟩
    · rw [hss] at hq₂ ⊢
      rw [hsame]
      exact ⟨q₂, hq₂, hm₂⟩

/-- Removing one registered order never raises and shrinks the
registry by exactly that order. -/
theorem removeOne_spec {st : OrderBook} {oid : Nat} {o : LimitOrder} (hwf : WF st)
    (ho : alookup oid st.orders = some o) :
    ∃ st', removeOne st oid o = some st' ∧ WF st' ∧
      st'.orders = adel oid st.orders ∧
      regVol st'.orders = regVol st.orders - o.volume := by
  obtain ⟨hid, hvol, hend, q, hq, hm⟩ := hwf.ordersOK oid o ho
  have hrv : regVol (adel oid st.orders) = regVol st.orders - o.volume := regVol_adel ho
  cases hsd : o.side with
  | buy =>
    refine ⟨{ st with
        bids := if lrem oid q = [] then adel o.price st.bids
                else aset o.price (lrem oid q) st.bids,
        orders := adel oid st.orders }, ?_, ?_, rfl, hrv⟩
    · have hqb : alookup o.price st.bids = some q := by
        have h := hq
        rw [hsd] at h
        exact h
      simp only [removeOne, hsd, sideBook]
      rw [hqb]
      simp [hm]
    · refine WF_remove_entry hwf ho hq rfl ?_ ?_
      · rw [hsd]
        rfl
      · rw [hsd]
        rfl
  | sell =>
    refine ⟨{ st with
        asks := if lrem oid q = [] then adel o.price st.asks
                else aset o.price (lrem oid q) st.asks,
        orders := adel oid st.orders }, ?_, ?_, rfl, hrv⟩
    · have hqa : alookup o.price st.asks = some q := by
        have h := hq
        rw [hsd] at h
        exact h
      simp only [removeOne, hsd, sideBook]
      rw [hqa]
      simp [hm]
    · refine WF_remove_entry hwf ho hq rfl ?_ ?_
      · rw [hsd]
        rfl
      · rw [hsd]
        rfl

/-- Total volume of the snapshot entries a removal pass selects. -/
def selVol (entries : List (Nat × LimitOrder)) (pred : Nat → LimitOrder → Bool) : Int :=
  ((entries.filter (fun e => pred e.1 e.2)).map (fun e => e.2.volume)).sum

theorem selVol_nil (pred : Nat → LimitOrder → Bool) : selVol [] pred = 0 := rfl

theorem selVol_cons (k : Nat) (v : LimitOrder) (l : List (Nat × LimitOrder))
    (pred : Nat → LimitOrder → Bool) :
    selVol ((k, v) :: l) pred = (if pred k v then v.volume else 0) + selVol l pred := by
  by_cases hp : pred k v <;> simp [selVol, hp]

/-- The snapshot loop of `cancel_random` / `remove_by_flag`: it never
raises, removes exactly the selected volume, and afterwards no selected
entry remains registered. -/
theorem removeList_spec {pred : Nat → LimitOrder → Bool} :
    ∀ (entries : List (Nat × LimitOrder)) (st : OrderBook), WF st →
      (entries.map Prod.fst).Nodup →
      (∀ e ∈ entries, alookup e.1 st.orders = some e.2) →
      ∃ st', removeList st pred entries = some st' ∧ WF st' ∧
        regVol st'.orders = regVol st.orders - selVol entries pred ∧
        (∀ k v, alookup k st'.orders = some v →
          alookup k st.orders = some v ∧ ((k, v) ∈ entries → pred k v = false)) ∧
        (∀ k, alookup k st.orders = none → alookup k st'.orders = none) := by
  intro entries
  induction entries with
  | nil =>
    intro st hwf _ _
    refine ⟨st, rfl, hwf, ?_, fun k v h => ⟨h, fun hm => absurd hm (by simp)⟩, fun _ h => h⟩
    have h0 : selVol [] pred = 0 := rfl
    omega
  | cons e rest ih =>
    obtain ⟨oid, o⟩ := e
    intro st hwf hnd hvals
    have ho : alookup oid st.orders = some o := hvals (oid, o) (List.mem_cons_self _ _)
    simp only [List.map_cons, List.nodup_cons] at hnd
    by_cases hp : pred oid o = true
    · obtain ⟨st₁, hr1, hwf₁, horders₁, hrv₁⟩ := removeOne_spec hwf ho
      have hlookne : ∀ k, k ≠ oid → alookup k st₁.orders = alookup k st.orders := by
        intro k hk
        rw [horders₁, alookup_adel_ne hk]
      have hlookoid : alookup oid st₁.orders = none := by
        rw [horders₁]
        exact alookup_adel_self hwf.regNodup
      have hvals₁ : ∀ e ∈ rest, alookup e.1 st₁.orders = some e.2 := by
        intro e he
        have hne : e.1 ≠ oid := by
          intro hh
          exact hnd.1 (hh ▸ List.mem_map.mpr ⟨e, he, rfl⟩)
        rw [hlookne e.1 hne]
        exact hvals e (List.mem_cons_of_mem _ he)
      obtain ⟨st', hr, hwf', hrv, hsur, hnone⟩ := ih st₁ hwf₁ hnd.2 hvals₁
      refine ⟨st', ?_, hwf', ?_, ?_, ?_⟩
      · simp only [removeList, if_pos hp, hr1]
        exact hr
      · have hsel : selVol ((oid, o) :: rest) pred = o.volume + selVol rest pred := by
          rw [selVol_cons, if_pos hp]
        omega
      · intro k v hkv
        obtain ⟨h1, h2⟩ := hsur k v hkv
        have hkne : k ≠ oid := by
          intro hh
          subst hh
          rw [hlookoid] at h1
          cases h1
        refine ⟨by rw [← hlookne k hkne]; exact h1, ?_⟩
        intro hmem
        rcases List.mem_cons.mp hmem with hh | hh
        · injection hh with h3 h4
          exact absurd h3 hkne
        · exact h2 hh
      · intro k hk
        apply hnone
        by_cases hkk : k = oid
        · subst hkk
          exact hlookoid
        · rw [hlookne k hkk]
          exact hk
    · have hpf : pred oid o = false := by
        revert hp
        cases pred oid o <;> simp
      obtain ⟨st', hr, hwf', hrv, hsur, hnone⟩ :=
        ih st hwf hnd.2 (fun e he => hvals e (List.mem_cons_of_mem _ he))
      refine ⟨st', ?_, hwf', ?_, ?_, hnone⟩
      · simp only [removeList, hpf]
        simp only [Bool.false_eq_true, if_false]
        exact hr
      · have hsel : selVol ((oid, o) :: rest) pred = selVol rest pred := by
          rw [selVol_cons, hpf]
          simp
        omega
      · intro k v hkv
        obtain ⟨h1, h2⟩ := hsur k v hkv
        refine ⟨h1, ?_⟩
        intro hmem
        rcases List.mem_cons.mp hmem with hh | hh
        · injection hh with h3 h4
          subst h3
          subst h4
          exact hpf
        · exact h2 hh

/-- Specification of the shared removal pass over a registry snapshot. -/
theorem removeWhere_spec {st : OrderBook} (hwf : WF st) (pred : Nat → LimitOrder → Bool) :
    ∃ st', removeWhere st pred = some st' ∧ WF st' ∧
      regVol st'.orders = regVol st.orders - selVol st.orders pred ∧
      (∀ k v, alookup k st'.orders = some v → alookup k st.orders = some v ∧
        pred k v = false) ∧
      (∀ k, alookup k st.orders = none → alookup k st'.orders = none) := by
  obtain ⟨st', hr, hwf', hrv, hsur, hnone⟩ := removeList_spec st.orders st hwf hwf.regNodup
    (fun e he => alookup_of_mem_nodup hwf.regNodup (by
      obtain ⟨k, v⟩ := e
      exact he))
  refine ⟨st', hr, hwf', hrv, ?_, hnone⟩
  intro k v h
  obtain ⟨h1, h2⟩ := hsur k v h
  exact ⟨h1, h2 (alookup_mem h1)⟩

/-! The public interface as an operation language, for the
volume-conservation property. -/

/-- A fresh empty book satisfies the invariant. -/
theorem WF_empty : WF OrderBook.empty := by
  refine ⟨by simp [OrderBook.empty], by simp [OrderBook.empty, keys],
    by simp [OrderBook.empty, keys], by simp [OrderBook.empty, sideIds], ?_, ?_⟩
  · intro s p q h
    cases s <;> simp [OrderBook.empty, sideBook, alookup] at h
  · intro oid o h
    simp [OrderBook.empty, alookup] at h

/-- A market order with a non-positive requested volume fills nothing
and leaves the book unchanged. -/
theorem match_market_nonpos (st : OrderBook) (side : Side) (t : Int) {vol : Int}
    (hv : ¬ 0 < vol) : match_market st side vol t = some (st, 0) := by
  cases side <;> simp [match_market, consume_stop _ _ _ _ hv]

/-- One operation of the book's public interface, with every random
choice resolved: the selection oracle plays the per-order coin flips
of `cancel_random`. -/
inductive Op where
  | add (o : LimitOrder)
  | market (side : Side) (vol : Int) (t : Int)
  | cancel (sel : Nat → Bool) (t : Int)

/-- Apply one operation; beside the new state, report the volume this
operation added to, filled from and cancelled from the book. -/
def applyOp (st : OrderBook) : Op → Option (OrderBook × Int × Int × Int)
  | .add o => some (add_limit st o, o.volume, 0, 0)
  | .market side vol t =>
    match match_market st side vol t with
    | none => none
    | some (st', f) => some (st', 0, f, 0)
  | .cancel sel t =>
    match cancel_random st sel t with
    | none => none
    | some st' => some (st', 0, 0, selVol st.orders (fun oid _ => sel oid))

/-- Run a sequence of operations, accumulating the added, filled and
cancelled volumes. -/
def runOps : OrderBook → List Op → Option (OrderBook × Int × Int × Int)
  | st, [] => some (st, 0, 0, 0)
  | st, op :: ops =>
    match applyOp st op with
    | none => none
    | some (st₁, a₁, f₁, c₁) =>
      match runOps st₁ ops with
      | none => none
      | some (st', a, f, c) => some (st', a₁ + a, f₁ + f, c₁ + c)

/-- The orders submitted by the `add_limit` operations of a sequence. -/
def addedOrders (ops : List Op) : List LimitOrder :=
  ops.filterMap (fun op => match op with | .add o => some o | _ => none)

/-- Validity of an operation sequence: the constructor `LimitOrder`
hands out process-unique ids, every submitted order is open, and the
simulation only ever submits positive volumes (`max(1, ...)` at lines
348 and 353, `int(MM_BASE_VOL * scale)` with the 0.1 floor at lines
303-307). -/
def OpsOK (ops : List Op) : Prop :=
  ((addedOrders ops).map LimitOrder.id).Nodup ∧
  ∀ o ∈ addedOrders ops, 0 < o.volume ∧ o.end_tick = none

theorem addedOrders_cons_add (o : LimitOrder) (ops : List Op) :
    addedOrders (Op.add o :: ops) = o :: addedOrders ops := by
  simp [addedOrders]

theorem addedOrders_cons_market (side : Side) (vol t : Int) (ops : List Op) :
    addedOrders (Op.market side vol t :: ops) = addedOrders ops := by
  simp [addedOrders]

theorem addedOrders_cons_cancel (sel : Nat → Bool) (t : Int) (ops : List Op) :
    addedOrders (Op.cancel sel t :: ops) = addedOrders ops := by
  simp [addedOrders]

theorem runOps_cons (st : OrderBook) (op : Op) (ops : List Op) :
    runOps st (op :: ops) =
      (match applyOp st op with
      | none => none
      | some (st₁, a₁, f₁, c₁) =>
        match runOps st₁ ops with
        | none => none
        | some (st', a, f, c) => some (st', a₁ + a, f₁ + f, c₁ + c)) := rfl

/-- Volume ledger for a run: whatever was added is split between what
was filled, what was cancelled and what is still resting. -/
theorem runOps_spec :
    ∀ (ops : List Op) (st : OrderBook), WF st →
      ((addedOrders ops).map LimitOrder.id).Nodup →
      (∀ o ∈ addedOrders ops, 0 < o.volume ∧ o.end_tick = none ∧
        alookup o.id st.orders = none) →
      ∃ st' a f c, runOps st ops = some (st', a, f, c) ∧ WF st' ∧
        regVol st'.orders + f + c = regVol st.orders + a ∧
        (∀ k, alookup k st.orders = none →
          k ∉ (addedOrders ops).map LimitOrder.id → alookup k st'.orders = none) := by
  intro ops
  induction ops with
  | nil =>
    intro st hwf _ _
    exact ⟨st, 0, 0, 0, rfl, hwf, by omega, fun k h _ => h⟩
  | cons op ops ih =>
    intro st hwf hnd hadds
    cases op with
    | add o =>
      rw [addedOrders_cons_add] at hnd hadds
      simp only [List.map_cons, List.nodup_cons] at hnd
      obtain ⟨hvol, hend, hfresh⟩ := hadds o (List.mem_cons_self _ _)
      have hwf₁ : WF (add_limit st o) := WF_add_limit hwf hfresh hvol hend
      have hlk : ∀ k, k ≠ o.id →
          alookup k (add_limit st o).orders = alookup k st.orders := by
        intro k hk
        rw [add_limit_orders, alookup_aset_ne _ hk]
      have hadds₁ : ∀ o' ∈ addedOrders ops, 0 < o'.volume ∧ o'.end_tick = none ∧
          alookup o'.id (add_limit st o).orders = none := by
        intro o' ho'
        obtain ⟨h1, h2, h3⟩ := hadds o' (List.mem_cons_of_mem _ ho')
        refine ⟨h1, h2, ?_⟩
        have hne : o'.id ≠ o.id := by
          intro he
          exact hnd.1 (he ▸ List.mem_map.mpr ⟨o', ho', rfl⟩)
        rw [hlk o'.id hne]
        exact h3
      obtain ⟨st', a, f, c, hr, hwf', hbal, hnone⟩ := ih (add_limit st o) hwf₁ hnd.2 hadds₁
      refine ⟨st', o.volume + a, 0 + f, 0 + c, ?_, hwf', ?_, ?_⟩
      · have hstep : runOps st (Op.add o :: ops) =
            (match runOps (add_limit st o) ops with
            | none => none
            | some (st', a, f, c) => some (st', o.volume + a, 0 + f, 0 + c)) := rfl
        rw [hstep, hr]
      · have hrv := regVol_add_limit hfresh
        omega
      · intro k hk hkn
        simp only [addedOrders_cons_add, List.map_cons, List.mem_cons] at hkn
        have hne : k ≠ o.id := fun he => hkn (Or.inl he)
        apply hnone k
        · rw [hlk k hne]
          exact hk
        · exact fun h => hkn (Or.inr h)
    | market side vol t =>
      rw [addedOrders_cons_market] at hnd hadds
      by_cases hv : 0 < vol
      · obtain ⟨st₁, f₁, hm, hwf₁, hsame, bout⟩ :=
          @match_market_spec st side vol t hwf (le_of_lt hv)
        have hnone₁ : ∀ k, alookup k st.orders = none → alookup k st₁.orders = none := by
          intro k hk
          cases hcase : alookup k st₁.orders with
          | none => rfl
          | some o' =>
            obtain ⟨o₀, h₀, _⟩ := bout.btri k o' hcase
            rw [hk] at h₀
            cases h₀
        have hadds₁ : ∀ o' ∈ addedOrders ops, 0 < o'.volume ∧ o'.end_tick = none ∧
            alookup o'.id st₁.orders = none := by
          intro o' ho'
          obtain ⟨h1, h2, h3⟩ := hadds o' ho'
          exact ⟨h1, h2, hnone₁ o'.id h3⟩
        obtain ⟨st', a, f, c, hr, hwf', hbal, hnone⟩ := ih st₁ hwf₁ hnd hadds₁
        refine ⟨st', 0 + a, f₁ + f, 0 + c, ?_, hwf', ?_, ?_⟩
        · have ha : applyOp st (Op.market side vol t) = some (st₁, 0, f₁, 0) := by
            simp only [applyOp, hm]
          rw [runOps_cons]
          simp only [ha, hr]
        · have hrv := bout.bsum
          omega
        · intro k hk hkn
          exact hnone k (hnone₁ k hk) hkn
      · have hm := match_market_nonpos st side t hv
        obtain ⟨st', a, f, c, hr, hwf', hbal, hnone⟩ := ih st hwf hnd hadds
        refine ⟨st', 0 + a, 0 + f, 0 + c, ?_, hwf', by omega, hnone⟩
        have ha : applyOp st (Op.market side vol t) = some (st, 0, 0, 0) := by
          simp only [applyOp, hm]
        rw [runOps_cons]
        simp only [ha, hr]
    | cancel sel t =>
      rw [addedOrders_cons_cancel] at hnd hadds
      obtain ⟨st₁, hm, hwf₁, hrv₁, hsur, hnone₁⟩ :=
        removeWhere_spec hwf (fun oid _ => sel oid)
      have hadds₁ : ∀ o' ∈ addedOrders ops, 0 < o'.volume ∧ o'.end_tick = none ∧
          alookup o'.id st₁.orders = none := by
        intro o' ho'
        obtain ⟨h1, h2, h3⟩ := hadds o' ho'
        exact ⟨h1, h2, hnone₁ o'.id h3⟩
      obtain ⟨st', a, f, c, hr, hwf', hbal, hnone⟩ := ih st₁ hwf₁ hnd hadds₁
      refine ⟨st', 0 + a, 0 + f, selVol st.orders (fun oid _ => sel oid) + c, ?_, hwf', ?_, ?_⟩
      · have hm' : cancel_random st sel t = some st₁ := hm
        have ha : applyOp st (Op.cancel sel t) =
            some (st₁, 0, 0, selVol st.orders (fun oid _ => sel oid)) := by
          simp only [applyOp, hm']
        rw [runOps_cons]
        simp only [ha, hr]
      · omega
      · intro k hk hkn
        exact hnone k (hnone₁ k hk) hkn

/-! The per-tick pipeline of the main simulation loop, restricted to
its effects on the order book, for the market-maker quote-freshness
property. -/

/-- One order-flow event inside a tick, with every random draw (side,
volume, market-vs-limit coin, limit price, constructor-assigned order
id) resolved. -/
inductive TickEv where
  | market (side : Side) (vol : Int)
  | limit (oid : Nat) (side : Side) (price : ℚ) (vol : Int)

/-- Per-tick inputs: the market-maker quote parameters (the values
lines 296-307 compute from the mid price and inventory; arbitrary
here, because the freshness claim does not depend on them), the
resolved shuffled order-flow events, and the cancellation oracle. -/
structure TickData where
  bidPrice : ℚ
  askPrice : ℚ
  bidVol : Int
  askVol : Int
  bidId : Nat
  askId : Nat
  events : List TickEv
  sel : Nat → Bool

/-- A market-maker quote as built at lines 311-312: a fresh
`LimitOrder` for the current tick with `mm_tag` set to `True`. -/
def mmOrder (oid : Nat) (side : Side) (price : ℚ) (vol : Int) (t : Int) : LimitOrder :=
  { id := oid, side := side, price := price, volume := vol, start_tick := t,
    end_tick := none, mm_tag := true }

/-- A noise/trend-follower limit order as built at line 368: `mm_tag`
stays `False`. -/
def flowOrder (oid : Nat) (side : Side) (price : ℚ) (vol : Int) (t : Int) : LimitOrder :=
  { id := oid, side := side, price := price, volume := vol, start_tick := t,
    end_tick := none, mm_tag := false }

/-- Line 293: `ob.remove_by_flag(lambda o: o.start_tick == t - 1 and
getattr(o, "mm_tag", False), t)`. -/
def mmRetract (st : OrderBook) (t : Int) : Option OrderBook :=
  remove_by_flag st (fun o => decide (o.start_tick = t - 1) && o.mm_tag) t

/-- Lines 309-313: post the two fresh tagged quotes. -/
def mmQuote (st : OrderBook) (t : Int) (td : TickData) : OrderBook :=
  add_limit (add_limit st (mmOrder td.bidId .buy td.bidPrice td.bidVol t))
    (mmOrder td.askId .sell td.askPrice td.askVol t)

/-- Lines 342-370, restricted to the book effects: each event either
sends a market order or rests a fresh limit order stamped with the
current tick. -/
def applyTickEv (st : OrderBook) (t : Int) : TickEv → Option OrderBook
  | .market side vol =>
    match match_market st side vol t with
    | none => none
    | some (st', _) => some st'
  | .limit oid side price vol => some (add_limit st (flowOrder oid side price vol t))

def runEvents (st : OrderBook) (t : Int) : List TickEv → Option OrderBook
  | [] => some st
  | ev :: evs =>
    match applyTickEv st t ev with
    | none => none
    | some st' => runEvents st' t evs

/-- One full tick of the main loop (lines 286-412), restricted to its
book effects: retract the stale quotes, post the new quotes, process
the shuffled events, then cancel randomly. -/
def runTick (st : OrderBook) (t : Int) (td : TickData) : Option OrderBook :=
  match mmRetract st t with
  | none => none
  | some st₁ =>
    match runEvents (mmQuote st₁ t td) t td.events with
    | none => none
    | some st₂ => cancel_random st₂ td.sel t

/-- Run the loop from tick `t` onwards. -/
def runTicks : OrderBook → Nat → List TickData → Option OrderBook
  | st, _, [] => some st
  | st, t, td :: tds =>
    match runTick st (t : Int) td with
    | none => none
    | some st' => runTicks st' (t + 1) tds

/-- The ids of the limit orders a tick's events rest. -/
def evIdsList (evs : List TickEv) : List Nat :=
  evs.filterMap (fun ev => match ev with | .limit oid _ _ _ => some oid | _ => none)

/-- All constructor-assigned ids a tick hands out. -/
def tickIds (td : TickData) : List Nat := td.bidId :: td.askId :: evIdsList td.events

/-- Validity of one tick's resolved inputs: the quoted sizes are
positive (`int(MM_BASE_VOL * scale)` with the 0.1 floor, lines
303-307), resting flow volumes are positive (`max(1, ...)`, lines 348
and 353), and the constructor hands out distinct ids. -/
def TickOK (td : TickData) : Prop :=
  0 < td.bidVol ∧ 0 < td.askVol ∧
  (∀ ev ∈ td.events, ∀ oid side price vol, ev = TickEv.limit oid side price vol → 0 < vol) ∧
  (tickIds td).Nodup

/-- Validity of a whole run: per-tick validity and process-unique ids. -/
def SimOK (tds : List TickData) : Prop :=
  ((tds.map tickIds).flatten).Nodup ∧ ∀ td ∈ tds, TickOK td

/-- Every market-maker-tagged order in the registry is stamped with
tick `τ`. -/
def mmStamp (st : OrderBook) (τ : Int) : Prop :=
  ∀ k o, alookup k st.orders = some o → o.mm_tag = true → o.start_tick = τ

/-- Processing the events of a tick keeps every market-maker quote
stamped with the current tick, keeps the invariant, and registers no
id beyond the events' own. -/
theorem runEvents_spec {t : Int} :
    ∀ (evs : List TickEv) (st : OrderBook), WF st → mmStamp st t →
      (evIdsList evs).Nodup →
      (∀ k ∈ evIdsList evs, alookup k st.orders = none) →
      (∀ ev ∈ evs, ∀ oid side price vol, ev = TickEv.limit oid side price vol → 0 < vol) →
      ∃ st', runEvents st t evs = some st' ∧ WF st' ∧ mmStamp st' t ∧
        (∀ k, alookup k st.orders = none → k ∉ evIdsList evs →
          alookup k st'.orders = none) := by
  intro evs
  induction evs with
  | nil =>
    intro st hwf hst _ _ _
    exact ⟨st, rfl, hwf, hst, fun _ h _ => h⟩
  | cons ev evs ih =>
    intro st hwf hst hnd hfresh hvols
    cases ev with
    | market side vol =>
      have hids : evIdsList (TickEv.market side vol :: evs) = evIdsList evs := by
        simp [evIdsList]
      rw [hids] at hnd hfresh
      by_cases hv : 0 < vol
      · obtain ⟨st₁, f₁, hm, hwf₁, hsame, bout⟩ :=
          @match_market_spec st side vol t hwf (le_of_lt hv)
        have hnone₁ : ∀ k, alookup k st.orders = none → alookup k st₁.orders = none := by
          intro k hk
          cases hcase : alookup k st₁.orders with
          | none => rfl
          | some o' =>
            obtain ⟨o₀, h₀, _⟩ := bout.btri k o' hcase
            rw [hk] at h₀
            cases h₀
        have hst₁ : mmStamp st₁ t := by
          intro k o h hmm
          obtain ⟨o₀, h₀, hbr⟩ := bout.btri k o h
          rcases hbr with h' | ⟨heq2, _, _, _⟩
          · have h1 : o.mm_tag = o₀.mm_tag := by rw [h']
            have h2 : o.start_tick = o₀.start_tick := by rw [h']
            rw [h2]
            exact hst k o₀ h₀ (by rw [← h1]; exact hmm)
          · have hmm₀ : o₀.mm_tag = true := by
              have : o.mm_tag = o₀.mm_tag := by rw [← heq2]
              rw [← this]
              exact hmm
            have : o.start_tick = o₀.start_tick := by rw [← heq2]
            rw [this]
            exact hst k o₀ h₀ hmm₀
        obtain ⟨st', hr, hwf', hst', hnone⟩ := ih st₁ hwf₁ hst₁ hnd
          (fun k hk => hnone₁ k (hfresh k hk)) (fun e he => hvols e (List.mem_cons_of_mem _ he))
        refine ⟨st', ?_, hwf', hst', ?_⟩
        · have ha : applyTickEv st t (TickEv.market side vol) = some st₁ := by
            simp only [applyTickEv, hm]
          simp only [runEvents, ha]
          exact hr
        · intro k hk hkn
          rw [hids] at hkn
          exact hnone k (hnone₁ k hk) hkn
      · have hm := match_market_nonpos st side t hv
        obtain ⟨st', hr, hwf', hst', hnone⟩ := ih st hwf hst hnd hfresh
          (fun e he => hvols e (List.mem_cons_of_mem _ he))
        refine ⟨st', ?_, hwf', hst', ?_⟩
        · have ha : applyTickEv st t (TickEv.market side vol) = some st := by
            simp only [applyTickEv, hm]
          simp only [runEvents, ha]
          exact hr
        · intro k hk hkn
          rw [hids] at hkn
          exact hnone k hk hkn
    | limit oid side price vol =>
      have hids : evIdsList (TickEv.limit oid side price vol :: evs) =
          oid :: evIdsList evs := by
        simp [evIdsList]
      rw [hids] at hnd hfresh
      obtain ⟨hoid, hnd'⟩ := List.nodup_cons.mp hnd
      have hvol : 0 < vol :=
        hvols _ (List.mem_cons_self _ _) oid side price vol rfl
      have hfresh₀ : alookup oid st.orders = none := hfresh oid (List.mem_cons_self _ _)
      have hwf₁ : WF (add_limit st (flowOrder oid side price vol t)) :=
        WF_add_limit hwf hfresh₀ hvol rfl
      have hidr : (flowOrder oid side price vol t).id = oid := rfl
      have hlk : ∀ k, k ≠ oid →
          alookup k (add_limit st (flowOrder oid side price vol t)).orders =
            alookup k st.orders := by
        intro k hk
        rw [add_limit_orders, hidr, alookup_aset_ne _ hk]
      have hst₁ : mmStamp (add_limit st (flowOrder oid side price vol t)) t := by
        intro k o h hmm
        by_cases hk : k = oid
        · subst hk
          rw [add_limit_orders, hidr, alookup_aset_self] at h
          injection h with h
          rw [← h] at hmm
          simp [flowOrder] at hmm
        · rw [hlk k hk] at h
          exact hst k o h hmm
      obtain ⟨st', hr, hwf', hst', hnone⟩ := ih _ hwf₁ hst₁ hnd'
        (fun k hk => by
          have hne : k ≠ oid := fun he => hoid (he ▸ hk)
          rw [hlk k hne]
          exact hfresh k (List.mem_cons_of_mem _ hk))
        (fun e he => hvols e (List.mem_cons_of_mem _ he))
      refine ⟨st', ?_, hwf', hst', ?_⟩
      · simp only [runEvents, applyTickEv]
        exact hr
      · intro k hk hkn
        rw [hids] at hkn
        have hne : k ≠ oid := fun he => hkn (he ▸ List.mem_cons_self _ _)
        apply hnone k
        · rw [hlk k hne]
          exact hk
        · exact fun h => hkn (List.mem_cons_of_mem _ h)

/-- Full specification of one tick: the retraction removes every
stale quote (using the induction hypothesis that all resting
market-maker quotes are stamped with the previous tick), so right
after re-quoting — and until the end of the tick — every
market-maker-tagged order is stamped with the current tick. -/
theorem runTick_spec {st : OrderBook} {t : Int} {td : TickData}
    (hwf : WF st) (hstamp : mmStamp st (t - 1)) (hok : TickOK td)
    (hfresh : ∀ k ∈ tickIds td, alookup k st.orders = none) :
    ∃ st₁ st', mmRetract st t = some st₁ ∧
      mmStamp (mmQuote st₁ t td) t ∧
      runTick st t td = some st' ∧ WF st' ∧ mmStamp st' t ∧
      (∀ k, alookup k st.orders = none → k ∉ tickIds td →
        alookup k st'.orders = none) := by
  obtain ⟨hbv, hav, hevol, hndt⟩ := hok
  have hne_ba : td.bidId ≠ td.askId := by
    have := (List.nodup_cons.mp hndt).1
    intro he
    exact this (he ▸ List.mem_cons_self _ _)
  have hnd_ev : (evIdsList td.events).Nodup :=
    ((List.nodup_cons.mp hndt).2 |> List.nodup_cons.mp).2
  have hb_ev : td.bidId ∉ evIdsList td.events := by
    have := (List.nodup_cons.mp hndt).1
    intro he
    exact this (List.mem_cons_of_mem _ he)
  have ha_ev : td.askId ∉ evIdsList td.events :=
    ((List.nodup_cons.mp hndt).2 |> List.nodup_cons.mp).1
  -- phase 1: retraction of the stale quotes
  obtain ⟨st₁, hr₁, hwf₁, hrv₁, hsur₁, hnone₁⟩ :=
    removeWhere_spec hwf (fun _ o => decide (o.start_tick = t - 1) && o.mm_tag)
  have hmr : mmRetract st t = some st₁ := hr₁
  have hclean : ∀ k o, alookup k st₁.orders = some o → o.mm_tag = false := by
    intro k o h
    obtain ⟨h1, h2⟩ := hsur₁ k o h
    by_cases hmm : o.mm_tag = true
    · have hstt := hstamp k o h1 hmm
      simp [hstt, hmm] at h2
    · revert hmm
      cases o.mm_tag <;> simp
  -- phase 2: the two fresh quotes
  have hfb : alookup td.bidId st₁.orders = none :=
    hnone₁ _ (hfresh td.bidId (List.mem_cons_self _ _))
  have hfa : alookup td.askId st₁.orders = none :=
    hnone₁ _ (hfresh td.askId (List.mem_cons_of_mem _ (List.mem_cons_self _ _)))
  have hidb : (mmOrder td.bidId .buy td.bidPrice td.bidVol t).id = td.bidId := rfl
  have hida : (mmOrder td.askId .sell td.askPrice td.askVol t).id = td.askId := rfl
  have hwfb : WF (add_limit st₁ (mmOrder td.bidId .buy td.bidPrice td.bidVol t)) :=
    WF_add_limit hwf₁ hfb hbv rfl
  have hlq1 : ∀ k, k ≠ td.bidId →
      alookup k (add_limit st₁ (mmOrder td.bidId .buy td.bidPrice td.bidVol t)).orders =
        alookup k st₁.orders := by
    intro k hk
    rw [add_limit_orders, hidb, alookup_aset_ne _ hk]
  have hfa₁ : alookup td.askId
      (add_limit st₁ (mmOrder td.bidId .buy td.bidPrice td.bidVol t)).orders = none := by
    rw [hlq1 _ (Ne.symm hne_ba)]
    exact hfa
  have hwfQ : WF (mmQuote st₁ t td) := WF_add_limit hwfb hfa₁ hav rfl
  have hlq : ∀ k, k ≠ td.bidId → k ≠ td.askId →
      alookup k (mmQuote st₁ t td).orders = alookup k st₁.orders := by
    intro k hkb hka
    show alookup k (add_limit _ _).orders = _
    rw [add_limit_orders, hida, alookup_aset_ne _ hka]
    exact hlq1 k hkb
  have hstQ : mmStamp (mmQuote st₁ t td) t := by
    intro k o h hmm
    by_cases hka : k = td.askId
    · subst hka
      have : alookup td.askId (mmQuote st₁ t td).orders =
          some (mmOrder td.askId .sell td.askPrice td.askVol t) := by
        show alookup td.askId (add_limit _ _).orders = _
        rw [add_limit_orders, hida]
        exact alookup_aset_self _ _ _
      rw [this] at h
      injection h with h
      rw [← h]
      rfl
    · by_cases hkb : k = td.bidId
      · subst hkb
        have : alookup td.bidId (mmQuote st₁ t td).orders =
            some (mmOrder td.bidId .buy td.bidPrice td.bidVol t) := by
          show alookup td.bidId (add_limit _ _).orders = _
          rw [add_limit_orders, hida, alookup_aset_ne _ hka, add_limit_orders, hidb]
          exact alookup_aset_self _ _ _
        rw [this] at h
        injection h with h
        rw [← h]
        rfl
      · rw [hlq k hkb hka] at h
        rw [hclean k o h] at hmm
        cases hmm
  -- phase 3: events
  obtain ⟨st₃, hre, hwf₃, hst₃, hnone₃⟩ := runEvents_spec td.events (mmQuote st₁ t td)
    hwfQ hstQ hnd_ev
    (fun k hk => by
      have hkb : k ≠ td.bidId := fun he => hb_ev (he ▸ hk)
      have hka : k ≠ td.askId := fun he => ha_ev (he ▸ hk)
      rw [hlq k hkb hka]
      exact hnone₁ _ (hfresh k (List.mem_cons_of_mem _ (List.mem_cons_of_mem _ hk))))
    hevol
  -- phase 4: cancellation
  obtain ⟨st', hr₄, hwf', hrv₄, hsur₄, hnone₄⟩ :=
    removeWhere_spec hwf₃ (fun oid _ => td.sel oid)
  have hcr : cancel_random st₃ td.sel t = some st' := hr₄
  have hst' : mmStamp st' t := by
    intro k o h hmm
    obtain ⟨h1, _⟩ := hsur₄ k o h
    exact hst₃ k o h1 hmm
  refine ⟨st₁, st', hmr, hstQ, ?_, hwf', hst', ?_⟩
  · simp only [runTick, hmr, hre]
    exact hcr
  · intro k hk hkt
    have hkb : k ≠ td.bidId := fun he => hkt (he ▸ List.mem_cons_self _ _)
    have hka : k ≠ td.askId :=
      fun he => hkt (he ▸ List.mem_cons_of_mem _ (List.mem_cons_self _ _))
    have hke : k ∉ evIdsList td.events :=
      fun hm => hkt (List.mem_cons_of_mem _ (List.mem_cons_of_mem _ hm))
    apply hnone₄
    apply hnone₃ k _ hke
    rw [hlq k hkb hka]
    exact hnone₁ _ hk

theorem flatten_map_cons (td : TickData) (tds : List TickData) :
    ((td :: tds).map tickIds).flatten = tickIds td ++ (tds.map tickIds).flatten := by
  simp

/-- Induction over the run: at every tick the state reached by the
prefix run is well-formed, all market-maker quotes in it are stamped
with the previous tick, and therefore the retraction-and-requote phase
of that tick leaves only quotes stamped with the current tick. -/
theorem C10_aux :
    ∀ (tds : List TickData) (st : OrderBook) (t : Nat), WF st →
      mmStamp st ((t : Int) - 1) →
      ((tds.map tickIds).flatten).Nodup → (∀ td ∈ tds, TickOK td) →
      (∀ k ∈ (tds.map tickIds).flatten, alookup k st.orders = none) →
      ∀ n (hn : n < tds.length),
        ∃ st₂ st₁, runTicks st t (tds.take n) = some st₂ ∧
          mmRetract st₂ ((t : Int) + n) = some st₁ ∧
          ∀ k o, alookup k (mmQuote st₁ ((t : Int) + n) (tds.get ⟨n, hn⟩)).orders = some o →
            o.mm_tag = true → o.start_tick = (t : Int) + n := by
  intro tds
  induction tds with
  | nil =>
    intro st t _ _ _ _ _ n hn
    exact absurd hn (Nat.not_lt_zero n)
  | cons td tds ih =>
    intro st t hwf hstamp hnd hok hfresh n hn
    rw [flatten_map_cons] at hnd hfresh
    obtain ⟨hnd₁, hnd₂, hdisj⟩ := List.nodup_append.mp hnd
    have hfresh₁ : ∀ k ∈ tickIds td, alookup k st.orders = none :=
      fun k hk => hfresh k (List.mem_append_left _ hk)
    obtain ⟨st₁, st', hmr, hstQ, hrt, hwf', hst', hnone'⟩ :=
      runTick_spec hwf hstamp (hok td (List.mem_cons_self _ _)) hfresh₁
    cases n with
    | zero =>
      refine ⟨st, st₁, rfl, ?_, ?_⟩
      · rw [show (t : Int) + ((0 : Nat) : Int) = (t : Int) by simp]
        exact hmr
      · rw [show (t : Int) + ((0 : Nat) : Int) = (t : Int) by simp]
        intro k o h hmm
        exact hstQ k o h hmm
    | succ n =>
      have hn' : n < tds.length := by simpa using hn
      have hstamp' : mmStamp st' (((t + 1 : Nat) : Int) - 1) := by
        have hcast : ((t + 1 : Nat) : Int) - 1 = (t : Int) := by push_cast; ring
        rw [hcast]
        exact hst'
      have hfresh' : ∀ k ∈ (tds.map tickIds).flatten, alookup k st'.orders = none := by
        intro k hk
        exact hnone' k (hfresh k (List.mem_append_right _ hk)) (fun hm => hdisj hm hk)
      obtain ⟨st₂, st₁', hrun, hmr', hstQ'⟩ := ih st' (t + 1) hwf' hstamp' hnd₂
        (fun td' h => hok td' (List.mem_cons_of_mem _ h)) hfresh' n hn'
      have hcast : ((t + 1 : Nat) : Int) + (n : Int) = (t : Int) + ((n + 1 : Nat) : Int) := by
        push_cast
        ring
      refine ⟨st₂, st₁', ?_, ?_, ?_⟩
      · have htake : (td :: tds).take (n + 1) = td :: tds.take n := rfl
        rw [htake]
        simp only [runTicks, hrt]
        exact hrun
      · rw [← hcast]
        exact hmr'
      · rw [← hcast]
        intro k o h hmm
        exact hstQ' k o h hmm

/-! The market-maker inventory dynamics (lines 357-372). -/

/-- `INV_MAX = 5_000` (line 40). -/
def INV_MAX : Int := 5000

/-- `np.clip(x, lo, hi)` on integers. -/
def npClip (x lo hi : Int) : Int := min (max x lo) hi

/-- The effect of one processed event on `mm_inv` (lines 357-372): a
market order that filled a positive amount moves the inventory by the
filled volume against the aggressor's side; a limit order, or a market
order that filled nothing, leaves it alone; either way line 372 clips
the result to `[-INV_MAX, INV_MAX]`.  An event is `(was it a market
order, its side, the volume it filled)`. -/
def mmInvStep (inv : Int) (ev : Bool × Side × Int) : Int :=
  npClip
    (if ev.1 = true ∧ 0 < ev.2.2 then
      (match ev.2.1 with
       | .buy => inv - ev.2.2
       | .sell => inv + ev.2.2)
    else inv)
    (-INV_MAX) INV_MAX

theorem mmInvStep_bounds (inv : Int) (ev : Bool × Side × Int) :
    -INV_MAX ≤ mmInvStep inv ev ∧ mmInvStep inv ev ≤ INV_MAX := by
  unfold mmInvStep npClip INV_MAX
  split <;> (try split) <;> omega

/-! The trend signal (lines 267, 319-330, 411-412). -/

/-- `TREND_WINDOW = 2` (line 20). -/
def TREND_WINDOW : Nat := 2

/-- `P0 = 100.0` (line 11). -/
def P0 : ℚ := 100

/-- `np.mean` of a list of rationals (0 on the empty list; the script
never takes the mean of an empty slice here). -/
def npMean (l : List ℚ) : ℚ := l.sum / l.length

/-- The Python slice `l[-n:]` for `n ≥ 1`. -/
def lastN (n : Nat) (l : List ℚ) : List ℚ := l.drop (l.length - n)

/-- `np.sign` as an integer. -/
def qsign (x : ℚ) : Int := if 0 < x then 1 else if x < 0 then -1 else 0

/-- Line 319: `sma_now = np.mean(price_hist[-TREND_WINDOW:])`. -/
def sma_now (hist : List ℚ) : ℚ := npMean (lastN TREND_WINDOW hist)

/-- Line 320: `sma_prev = np.mean(price_hist[:-1][-TREND_WINDOW:])`. -/
def sma_prev (hist : List ℚ) : ℚ := npMean (lastN TREND_WINDOW hist.dropLast)

/-- Line 321: `trend = np.sign(sma_now - sma_prev)`. -/
def trendSign (hist : List ℚ) : Int := qsign (sma_now hist - sma_prev hist)

/-- Line 329: `tf_buy = tf_draw if trend > 0 else 0`. -/
def tf_buy (trend : Int) (draw : Nat) : Nat := if 0 < trend then draw else 0

/-- Line 330: `tf_sell = tf_draw if trend < 0 else 0`. -/
def tf_sell (trend : Int) (draw : Nat) : Nat := if trend < 0 then draw else 0

/-- Lines 411-412: append the close, keep only the last
`TREND_WINDOW` prices. -/
def priceHistStep (hist : List ℚ) (c : ℚ) : List ℚ := lastN TREND_WINDOW (hist ++ [c])

/-- Line 267 and the loop: the maintained `price_hist` after a given
sequence of closes. -/
def priceHist (closes : List ℚ) : List ℚ :=
  closes.foldl priceHistStep (List.replicate TREND_WINDOW P0)

/-- Modelled from the spec (for comparison with the code's
`trendSign`): the claimed signal compares the moving average of the
last `TREND_WINDOW` closes against the moving average of the
`TREND_WINDOW` closes immediately before those — two disjoint
windows of the close history. -/
def trendSignSpec (closes : List ℚ) : Int :=
  qsign (npMean (lastN TREND_WINDOW closes) -
    npMean (lastN TREND_WINDOW (closes.take (closes.length - TREND_WINDOW))))

theorem length_lastN (n : Nat) (l : List ℚ) : (lastN n l).length = min n l.length := by
  simp [lastN]
  omega

theorem priceHist_length (closes : List ℚ) : (priceHist closes).length = TREND_WINDOW := by
  unfold priceHist
  induction closes using List.reverseRecOn with
  | nil => simp [TREND_WINDOW]
  | append_singleton cs c ih =>
    rw [List.foldl_append]
    simp only [List.foldl_cons, List.foldl_nil]
    rw [show List.foldl priceHistStep (List.replicate TREND_WINDOW P0) cs = priceHist cs
      from rfl] at ih ⊢
    rw [priceHistStep, length_lastN]
    simp [ih, TREND_WINDOW]

theorem qsign_half (z : ℚ) : qsign (z / 2) = qsign z := by
  have hp : 0 < z / 2 ↔ 0 < z := by constructor <;> (intro h; linarith)
  have hn : z / 2 < 0 ↔ z < 0 := by constructor <;> (intro h; linarith)
  unfold qsign
  rw [if_congr hp rfl rfl, if_congr hn rfl rfl]

/-! The mid-price update rule (lines 374-388). -/

/-- Lines 378-384: both sides present gives the midpoint, one side its
best price, neither the previous mid. -/
def updateMid (st : OrderBook) (mid : ℚ) : ℚ :=
  match best_bid st, best_ask st with
  | some b, some a => (b + a) / 2
  | some b, none => b
  | none, some a => a
  | none, none => mid

theorem foldl_max_bound :
    ∀ (l : List ℚ) (a : ℚ), a ≤ l.foldl max a ∧ ∀ x ∈ l, x ≤ l.foldl max a := by
  intro l
  induction l with
  | nil => intro a; exact ⟨le_refl a, fun x hx => absurd hx (by simp)⟩
  | cons y ys ih =>
    intro a
    have hstep : List.foldl max a (y :: ys) = List.foldl max (max a y) ys := rfl
    rw [hstep]
    obtain ⟨h1, h2⟩ := ih (max a y)
    refine ⟨le_trans (le_max_left a y) h1, ?_⟩
    intro x hx
    rcases List.mem_cons.mp hx with rfl | hx'
    · exact le_trans (le_max_right a x) h1
    · exact h2 x hx'

theorem foldl_min_bound :
    ∀ (l : List ℚ) (a : ℚ), l.foldl min a ≤ a ∧ ∀ x ∈ l, l.foldl min a ≤ x := by
  intro l
  induction l with
  | nil => intro a; exact ⟨le_refl a, fun x hx => absurd hx (by simp)⟩
  | cons y ys ih =>
    intro a
    have hstep : List.foldl min a (y :: ys) = List.foldl min (min a y) ys := rfl
    rw [hstep]
    obtain ⟨h1, h2⟩ := ih (min a y)
    refine ⟨le_trans h1 (min_le_left a y), ?_⟩
    intro x hx
    rcases List.mem_cons.mp hx with rfl | hx'
    · exact le_trans h1 (min_le_right a x)
    · exact h2 x hx'

/-- `best_bid` is the greatest bid price level. -/
theorem best_bid_spec (st : OrderBook) (hne : st.bids ≠ []) :
    ∃ b, best_bid st = some b ∧ b ∈ keys st.bids ∧ ∀ p ∈ keys st.bids, p ≤ b := by
  cases hb : st.bids with
  | nil => exact absurd hb hne
  | cons e l =>
    obtain ⟨p, q⟩ := e
    have hk : keys ((p, q) :: l) = p :: keys l := rfl
    refine ⟨(keys l).foldl max p, ?_, ?_, ?_⟩
    · simp [best_bid, hb]
    · rw [hk]
      rcases foldl_minmax_mem max (fun a b => max_choice a b) (keys l) p with h | h
      · rw [h]
        exact List.mem_cons_self _ _
      · exact List.mem_cons_of_mem _ h
    · rw [hk]
      intro p' hp'
      rcases List.mem_cons.mp hp' with rfl | hp''
      · exact (foldl_max_bound (keys l) p').1
      · exact (foldl_max_bound (keys l) p).2 p' hp''

/-- `best_ask` is the least ask price level. -/
theorem best_ask_spec (st : OrderBook) (hne : st.asks ≠ []) :
    ∃ a, best_ask st = some a ∧ a ∈ keys st.asks ∧ ∀ p ∈ keys st.asks, a ≤ p := by
  cases hb : st.asks with
  | nil => exact absurd hb hne
  | cons e l =>
    obtain ⟨p, q⟩ := e
    have hk : keys ((p, q) :: l) = p :: keys l := rfl
    refine ⟨(keys l).foldl min p, ?_, ?_, ?_⟩
    · simp [best_ask, hb]
    · rw [hk]
      rcases foldl_minmax_mem min (fun a b => min_choice a b) (keys l) p with h | h
      · rw [h]
        exact List.mem_cons_self _ _
      · exact List.mem_cons_of_mem _ h
    · rw [hk]
      intro p' hp'
      rcases List.mem_cons.mp hp' with rfl | hp''
      · exact (foldl_min_bound (keys l) p').1
      · exact (foldl_min_bound (keys l) p).2 p' hp''

theorem best_bid_none (st : OrderBook) (hb : st.bids = []) : best_bid st = none := by
  simp [best_bid, hb]

theorem best_ask_none (st : OrderBook) (hb : st.asks = []) : best_ask st = none := by
  simp [best_ask, hb]

/-! The resilience detector (lines 437-446). -/

/-- `thresh = 0.9` (line 438). -/
def thresh : ℚ := 9 / 10

/-- The inner loop at lines 443-446: scan
`range(1, min(100, TICKS - t))` for the first recovery offset. -/
def resilienceScan (liq : List ℚ) (t : Nat) : Option Nat :=
  (List.range' 1 (min 100 (liq.length - t) - 1)).find?
    (fun τ => decide (thresh * liq.getD (t - 1) 0 ≤ liq.getD (t + τ) 0))

/-- Lines 437-446: the resilience-time series; `none` models the NaN
that `np.full(TICKS, np.nan)` leaves in untouched slots, and the outer
loop runs over `range(1, TICKS)` writing only at shock ticks. -/
def resilience_times (liq : List ℚ) : List (Option Nat) :=
  (List.range liq.length).map (fun t =>
    if 1 ≤ t ∧ liq.getD t 0 < thresh * liq.getD (t - 1) 0 then resilienceScan liq t
    else none)

/-- `find?` over a contiguous range returns the least element
satisfying the predicate. -/
theorem find?_range'_eq_some {p : Nat → Bool} :
    ∀ {n s x : Nat}, ((List.range' s n).find? p = some x ↔
      (s ≤ x ∧ x < s + n ∧ p x = true ∧ ∀ y, s ≤ y → y < x → p y = false)) := by
  intro n
  induction n with
  | zero =>
    intro s x
    simp only [List.range']
    constructor
    · intro h
      simp at h
    · intro ⟨h1, h2, _, _⟩
      omega
  | succ n ih =>
    intro s x
    rw [List.range'_succ]
    cases hp : p s with
    | true =>
      simp only [List.find?_cons, hp]
      constructor
      · intro h
        injection h with h
        subst h
        exact ⟨le_refl s, by omega, hp, fun y h1 h2 => absurd (lt_of_le_of_lt h1 h2) (lt_irrefl s)⟩
      · intro ⟨h1, h2, h3, h4⟩
        by_cases hx : x = s
        · rw [hx]
        · have : p s = false := h4 s (le_refl s) (by omega)
          rw [hp] at this
          cases this
    | false =>
      simp only [List.find?_cons, hp]
      rw [ih]
      constructor
      · intro ⟨h1, h2, h3, h4⟩
        refine ⟨by omega, by omega, h3, ?_⟩
        intro y hy1 hy2
        by_cases hys : y = s
        · rw [hys]
          exact hp
        · exact h4 y (by omega) hy2
      · intro ⟨h1, h2, h3, h4⟩
        have hxs : x ≠ s := by
          intro he
          rw [he, hp] at h3
          cases h3
        exact ⟨by omega, by omega, h3, fun y hy1 hy2 => h4 y (by omega) hy2⟩

theorem find?_range'_eq_none {p : Nat → Bool} {n s : Nat} :
    ((List.range' s n).find? p = none ↔ ∀ y, s ≤ y → y < s + n → p y = false) := by
  rw [List.find?_eq_none]
  constructor
  · intro h y h1 h2
    have := h y (by rw [List.mem_range'_1]; omega)
    revert this
    cases p y <;> simp
  · intro h y hy
    rw [List.mem_range'_1] at hy
    have := h y hy.1 hy.2
    simp [this]

/-- The entry the series holds at index `t < length`. -/
theorem resilience_times_getD (liq : List ℚ) (t : Nat) (ht : t < liq.length) :
    (resilience_times liq).getD t none =
      (if 1 ≤ t ∧ liq.getD t 0 < thresh * liq.getD (t - 1) 0 then resilienceScan liq t
       else none) := by
  unfold resilience_times
  rw [List.getD_eq_getElem?_getD]
  rw [List.getElem?_map]
  rw [List.getElem?_range ht]
  rfl

/-! The claims. -/

/-- C1: Partial fill correctness.  For every well-formed book state and
every market order, `match_market` succeeds, the returned fill never
exceeds the requested volume and never exceeds the opposite side's
total resting volume; and whenever the requested volume is at least the
total resting volume on the opposite side (including an empty opposite
side), the fill equals exactly that total, the opposite side ends with
no price levels, and none of that side's orders remain in the
registry. -/
theorem C1 (st : OrderBook) (side : Side) (vol t : Int) (hwf : WF st) (hv : 0 ≤ vol) :
    ∃ st' f, match_market st side vol t = some (st', f) ∧
      f ≤ vol ∧ f ≤ bookVol st.orders (sideBook st (opp side)) ∧
      (bookVol st.orders (sideBook st (opp side)) ≤ vol →
        f = bookVol st.orders (sideBook st (opp side)) ∧
        sideBook st' (opp side) = [] ∧
        ∀ k ∈ sideIds (sideBook st (opp side)), alookup k st'.orders = none) := by
  obtain ⟨st', f, hm, hwf', hsame, bout⟩ := @match_market_spec st side vol t hwf hv
  refine ⟨st', f, hm, ?_, ?_, ?_⟩
  · rw [bout.bfmin]
    exact min_le_left _ _
  · rw [bout.bfmin]
    exact min_le_right _ _
  · intro hex
    obtain ⟨hemp, hgone⟩ := bout.bfull hex
    refine ⟨?_, hemp, hgone⟩
    rw [bout.bfmin]
    omega

theorem C1_witness :
    ∃ st' f, match_market OrderBook.empty Side.buy 5 0 = some (st', f) ∧
      f ≤ 5 ∧ f ≤ bookVol OrderBook.empty.orders (sideBook OrderBook.empty (opp Side.buy)) ∧
      (bookVol OrderBook.empty.orders (sideBook OrderBook.empty (opp Side.buy)) ≤ 5 →
        f = bookVol OrderBook.empty.orders (sideBook OrderBook.empty (opp Side.buy)) ∧
        sideBook st' (opp Side.buy) = [] ∧
        ∀ k ∈ sideIds (sideBook OrderBook.empty (opp Side.buy)),
          alookup k st'.orders = none) :=
  C1 OrderBook.empty Side.buy 5 0 WF_empty (by decide)

/-- C3: Volume conservation.  For every finite sequence of `add_limit`,
`match_market` and `cancel_random` operations starting from the empty
book (with the script-guaranteed preconditions: constructor-unique
positive-volume fresh orders), the run succeeds and the total filled
volume plus the total cancelled volume plus the volume still resting
equals the total volume ever added. -/
theorem C3 (ops : List Op)
    (hnd : ((addedOrders ops).map LimitOrder.id).Nodup)
    (hvols : ∀ o ∈ addedOrders ops, 0 < o.volume ∧ o.end_tick = none) :
    ∃ st' a f c, runOps OrderBook.empty ops = some (st', a, f, c) ∧
      f + c + regVol st'.orders = a := by
  obtain ⟨st', a, f, c, hr, _, hled, _⟩ :=
    runOps_spec ops OrderBook.empty WF_empty hnd
      (fun o ho => ⟨(hvols o ho).1, (hvols o ho).2, rfl⟩)
  refine ⟨st', a, f, c, hr, ?_⟩
  have h0 : regVol OrderBook.empty.orders = 0 := rfl
  omega

def c3ops : List Op :=
  [Op.add { id := 1, side := Side.sell, price := 10, volume := 4, start_tick := 0,
            end_tick := none, mm_tag := false },
   Op.market Side.buy 3 1]

theorem C3_witness :
    ∃ st' a f c, runOps OrderBook.empty c3ops = some (st', a, f, c) ∧
      f + c + regVol st'.orders = a := by
  apply C3 c3ops
  · decide
  · intro o ho
    simp only [c3ops, addedOrders, List.filterMap] at ho
    simp at ho
    subst ho
    exact ⟨by decide, rfl⟩

/-- C4: Inventory bound.  After every processed event of the
simulation loop — whatever the resolved stream of events (market or
not, either side, any fill) — the market-maker inventory produced by
the per-event update-and-clip step stays within
`[-INV_MAX, INV_MAX]`, starting from `mm_inv = 0`. -/
theorem C4 (evs : List (Bool × Side × Int)) :
    ∀ x ∈ List.scanl mmInvStep 0 evs, -INV_MAX ≤ x ∧ x ≤ INV_MAX := by
  have key : ∀ (l : List (Bool × Side × Int)) (inv : Int),
      -INV_MAX ≤ inv → inv ≤ INV_MAX →
      ∀ x ∈ List.scanl mmInvStep inv l, -INV_MAX ≤ x ∧ x ≤ INV_MAX := by
    intro l
    induction l with
    | nil =>
      intro inv h1 h2 x hx
      simp [List.scanl] at hx
      subst hx
      exact ⟨h1, h2⟩
    | cons e es ih =>
      intro inv h1 h2 x hx
      simp only [List.scanl] at hx
      rcases List.mem_cons.mp hx with rfl | hx'
      · exact ⟨h1, h2⟩
      · exact ih (mmInvStep inv e) (mmInvStep_bounds inv e).1 (mmInvStep_bounds inv e).2 x hx'
  exact key evs 0 (by decide) (by decide)

theorem C4_witness : -INV_MAX ≤ (-3 : Int) ∧ (-3 : Int) ≤ INV_MAX :=
  C4 [(true, Side.buy, 3)] (-3) (by decide)

/-- C5 counterexample: a zero-volume order is NOT rejected by
`add_limit` — it is inserted into the registry and into its
price-level queue, refuting the claim that orders with
`volume <= 0` are rejected. -/
def c5order : LimitOrder :=
  { id := 7, side := Side.buy, price := 10, volume := 0, start_tick := 0,
    end_tick := none, mm_tag := false }

theorem C5_counterexample :
    c5order.volume ≤ 0 ∧
    alookup c5order.id (add_limit OrderBook.empty c5order).orders = some c5order ∧
    alookup c5order.price (sideBook (add_limit OrderBook.empty c5order) c5order.side) =
      some [c5order.id] :=
  ⟨by decide, rfl, rfl⟩

/-- C5 (amended): `add_limit` performs no validation whatsoever: every
order, regardless of its volume's sign, is registered and appended to
the back of its price-level queue. -/
theorem C5 (st : OrderBook) (o : LimitOrder) :
    alookup o.id (add_limit st o).orders = some o ∧
    ∃ q, alookup o.price (sideBook (add_limit st o) o.side) = some q ∧
      o.id ∈ q ∧ q.getLast? = some o.id := by
  constructor
  · rw [add_limit_orders]
    exact alookup_aset_self _ _ _
  · rw [add_limit_side_eq]
    cases hb : alookup o.price (sideBook st o.side) with
    | none => exact ⟨[o.id], pushLevel_self_none _ hb, by simp, by simp⟩
    | some q => exact ⟨q ++ [o.id], pushLevel_self_some _ hb, by simp, by simp⟩

/-- C8: Mid-price fallback.  The per-event mid-price recomputation is a
total function of the book (it never raises, in particular not on an
empty book) and follows the fallback rules: both sides present gives
the midpoint of the best (maximal) bid and best (minimal) ask, exactly
one side present gives that side's best price, and neither present
leaves the previous mid unchanged. -/
theorem C8 (st : OrderBook) (mid : ℚ) :
    (st.bids = [] → st.asks = [] → updateMid st mid = mid) ∧
    (st.bids ≠ [] → st.asks = [] → ∃ b, best_bid st = some b ∧ b ∈ keys st.bids ∧
      (∀ p ∈ keys st.bids, p ≤ b) ∧ updateMid st mid = b) ∧
    (st.bids = [] → st.asks ≠ [] → ∃ a, best_ask st = some a ∧ a ∈ keys st.asks ∧
      (∀ p ∈ keys st.asks, a ≤ p) ∧ updateMid st mid = a) ∧
    (st.bids ≠ [] → st.asks ≠ [] → ∃ b a, best_bid st = some b ∧ best_ask st = some a ∧
      b ∈ keys st.bids ∧ (∀ p ∈ keys st.bids, p ≤ b) ∧
      a ∈ keys st.asks ∧ (∀ p ∈ keys st.asks, a ≤ p) ∧
      updateMid st mid = (b + a) / 2) := by
  refine ⟨?_, ?_, ?_, ?_⟩
  · intro hb ha
    unfold updateMid
    rw [best_bid_none st hb, best_ask_none st ha]
  · intro hb ha
    obtain ⟨b, h1, h2, h3⟩ := best_bid_spec st hb
    refine ⟨b, h1, h2, h3, ?_⟩
    unfold updateMid
    rw [h1, best_ask_none st ha]
  · intro hb ha
    obtain ⟨a, h1, h2, h3⟩ := best_ask_spec st ha
    refine ⟨a, h1, h2, h3, ?_⟩
    unfold updateMid
    rw [best_bid_none st hb, h1]
  · intro hb ha
    obtain ⟨b, h1, h2, h3⟩ := best_bid_spec st hb
    obtain ⟨a, h4, h5, h6⟩ := best_ask_spec st ha
    refine ⟨b, a, h1, h4, h2, h3, h5, h6, ?_⟩
    unfold updateMid
    rw [h1, h4]

theorem C8_witness : updateMid OrderBook.empty 7 = 7 :=
  (C8 OrderBook.empty 7).1 rfl rfl

/-- C6 counterexample: because `price_hist` is truncated to the last
`TREND_WINDOW` closes each tick, `sma_prev` is the mean of the
`TREND_WINDOW` entries of `price_hist[:-1]` — an overlapping
(`TREND_WINDOW - 1`)-long window — not the mean of the `TREND_WINDOW`
closes immediately before the last `TREND_WINDOW` (two disjoint
windows).  On the close sequence `10, 10, 0, 1` the code's signal is
`+1` while the disjoint-window signal of the claim is `-1`. -/
theorem C6_counterexample :
    trendSign (priceHist [10, 10, 0, 1]) = 1 ∧
    trendSignSpec (List.replicate TREND_WINDOW P0 ++ [10, 10, 0, 1]) = -1 ∧
    (1 : Int) ≠ -1 := by
  refine ⟨?_, ?_, by decide⟩
  · show trendSign [0, 1] = 1
    show qsign (npMean [0, 1] - npMean [0]) = 1
    norm_num [qsign, npMean]
  · show qsign (npMean (lastN 2 [100, 100, 10, 10, 0, 1]) -
      npMean (lastN 2 [100, 100, 10, 10])) = -1
    show qsign (npMean [0, 1] - npMean [10, 10]) = -1
    norm_num [qsign, npMean]

/-- C6 (amended): the maintained `price_hist` always holds exactly the
last `TREND_WINDOW = 2` closes, so the trend sign on it is the sign of
the single last one-tick close change (the "previous SMA" window
overlaps the current one, shortened by one, rather than being the
disjoint previous window); the trend-follower draw is assigned
entirely to the buy side on a positive sign, entirely to the sell side
on a negative sign, and a flat signal yields zero on both sides. -/
theorem C6 :
    (∀ closes : List ℚ, (priceHist closes).length = TREND_WINDOW) ∧
    (∀ x y : ℚ, trendSign [x, y] = qsign (y - x)) ∧
    (∀ (tr : Int) (d : Nat),
      (0 < tr → tf_buy tr d = d ∧ tf_sell tr d = 0) ∧
      (tr < 0 → tf_buy tr d = 0 ∧ tf_sell tr d = d) ∧
      (tr = 0 → tf_buy tr d = 0 ∧ tf_sell tr d = 0)) := by
  refine ⟨priceHist_length, ?_, ?_⟩
  · intro x y
    have hd : sma_now [x, y] - sma_prev [x, y] = (y - x) / 2 := by
      show npMean (lastN 2 [x, y]) - npMean (lastN 2 [x, y].dropLast) = (y - x) / 2
      show npMean [x, y] - npMean [x] = (y - x) / 2
      unfold npMean
      simp [List.sum_cons, List.sum_nil]
      ring
    rw [trendSign, hd]
    exact qsign_half (y - x)
  · intro tr d
    refine ⟨?_, ?_, ?_⟩
    · intro h
      constructor
      · simp [tf_buy, h]
      · simp only [tf_sell]
        rw [if_neg (by omega)]
    · intro h
      constructor
      · simp only [tf_buy]
        rw [if_neg (by omega)]
      · simp [tf_sell, h]
    · intro h
      subst h
      exact ⟨by simp [tf_buy], by simp [tf_sell]⟩

theorem C6_witness :
    (priceHist [(1 : ℚ), 2, 3]).length = TREND_WINDOW ∧
    trendSign [(3 : ℚ), 5] = qsign (5 - 3) ∧
    tf_buy 1 4 = 4 ∧ tf_sell 1 4 = 0 :=
  ⟨C6.1 [1, 2, 3], C6.2.1 3 5, (C6.2.2 1 4).1 (by decide)⟩

/-- C7 counterexample: the inner scan runs over
`range(1, min(100, TICKS - t))`, so the largest offset ever examined
is `99`, not `100`: on a liquidity series with a shock at `t = 1`
whose first recovery is at offset exactly `100` — an offset that lies
within the claimed "capped horizon of 100 ticks" and within the
series bounds — the code records no resilience time at all. -/
def c7liq : List ℚ := 10 :: (List.replicate 100 1 ++ [10])

theorem C7_counterexample :
    (1 ≤ 1 ∧ c7liq.getD 1 0 < thresh * c7liq.getD 0 0) ∧
    thresh * c7liq.getD 0 0 ≤ c7liq.getD (1 + 100) 0 ∧
    1 + 100 < c7liq.length ∧
    (resilience_times c7liq).getD 1 none = none := by
  have e0 : c7liq.getD 0 0 = 10 := rfl
  have e1 : c7liq.getD 1 0 = 1 := rfl
  have e101 : c7liq.getD (1 + 100) 0 = 10 := rfl
  have elen : c7liq.length = 102 := rfl
  have hshock : c7liq.getD 1 0 < thresh * c7liq.getD 0 0 := by
    rw [e0, e1, thresh]
    norm_num
  refine ⟨⟨le_refl 1, hshock⟩, ?_, ?_, ?_⟩
  · rw [e0, e101, thresh]
    norm_num
  · rw [elen]
    norm_num
  · rw [resilience_times_getD c7liq 1 (by rw [elen]; norm_num)]
    rw [if_pos ⟨le_refl 1, hshock⟩]
    rw [resilienceScan]
    rw [find?_range'_eq_none.mpr]
    intro y h1 h2
    have hlen : c7liq.length = 102 := by norm_num [c7liq]
    rw [hlen] at h2
    have hy : 1 + y ≤ 100 := by omega
    have hval : c7liq.getD (1 + y) 0 = 1 := by
      have hidx : 1 + y = y + 1 := by omega
      rw [hidx]
      show ((10 : ℚ) :: (List.replicate 100 1 ++ [10])).getD (y + 1) 0 = 1
      rw [List.getD_eq_getElem?_getD, List.getElem?_cons_succ]
      rw [List.getElem?_append_left (by simp; omega)]
      rw [List.getElem?_replicate, if_pos (by omega)]
      rfl
    rw [hval]
    have hbase : c7liq.getD 0 0 = 10 := rfl
    rw [hbase]
    norm_num [thresh]

/-- C7 (amended): on a shock tick `t ≥ 1` (where
`liquidity[t] < 0.9 * liquidity[t-1]`) the recorded resilience time is
`some τ` exactly when `τ` is the smallest offset with
`1 ≤ τ < min 100 (length - t)` — a horizon capped at 99, not 100 —
whose liquidity recovers to at least `0.9` times the pre-shock
baseline `liquidity[t-1]`, and the entry is `none` when no such offset
exists in that range; on every non-shock tick (including `t = 0`) the
entry is `none`, so a series with no shock yields an all-`none`
resilience series. -/
theorem C7 (liq : List ℚ) (t : Nat) (ht : t < liq.length) :
    ((1 ≤ t ∧ liq.getD t 0 < thresh * liq.getD (t - 1) 0) →
      ∀ τ, ((resilience_times liq).getD t none = some τ ↔
        (1 ≤ τ ∧ τ < min 100 (liq.length - t) ∧
         thresh * liq.getD (t - 1) 0 ≤ liq.getD (t + τ) 0 ∧
         ∀ σ, 1 ≤ σ → σ < τ → ¬ thresh * liq.getD (t - 1) 0 ≤ liq.getD (t + σ) 0))) ∧
    (¬ (1 ≤ t ∧ liq.getD t 0 < thresh * liq.getD (t - 1) 0) →
      (resilience_times liq).getD t none = none) := by
  constructor
  · intro hshock τ
    rw [resilience_times_getD liq t ht, if_pos hshock, resilienceScan]
    rw [find?_range'_eq_some]
    have hmin : 1 ≤ min 100 (liq.length - t) := by omega
    constructor
    · intro ⟨h1, h2, h3, h4⟩
      refine ⟨h1, by omega, of_decide_eq_true h3, ?_⟩
      intro σ hσ1 hσ2
      have := h4 σ hσ1 hσ2
      exact of_decide_eq_false this
    · intro ⟨h1, h2, h3, h4⟩
      refine ⟨h1, by omega, decide_eq_true h3, ?_⟩
      intro y hy1 hy2
      exact decide_eq_false (h4 y hy1 hy2)
  · intro hns
    rw [resilience_times_getD liq t ht, if_neg hns]

theorem C7_witness :
    (resilience_times [(10 : ℚ), 1, 10]).getD 1 none = some 1 := by
  have h := C7 [(10 : ℚ), 1, 10] 1 (by norm_num)
  apply (h.1 (by norm_num [thresh]) 1).mpr
  refine ⟨le_refl 1, by norm_num, by norm_num [thresh], ?_⟩
  intro σ h1 h2
  omega

theorem C2_consume (reg : Registry) (i₁ i₂ i₃ : Nat) (p₁ p₂ : ℚ) (o₁ : LimitOrder)
    (w t : Int) (asc : Bool)
    (hbk : bestKey [(p₁, [i₁, i₂]), (p₂, [i₃])] asc = p₁)
    (hw : 0 < w) (hlook : alookup i₁ reg = some o₁) (hwlt : w < o₁.volume) :
    consume reg [(p₁, [i₁, i₂]), (p₂, [i₃])] w asc t =
      some (aset i₁ { o₁ with volume := o₁.volume - w } reg,
        [(p₁, [i₁, i₂]), (p₂, [i₃])], w) := by
  have hids : alookup (bestKey [(p₁, [i₁, i₂]), (p₂, [i₃])] asc)
      [(p₁, [i₁, i₂]), (p₂, [i₃])] = some [i₁, i₂] := by
    rw [hbk]
    simp [alookup]
  have hcl := consumeLevel_cons_part [i₂] t hw hlook hwlt
  have hc := consume_cons hw hids hcl
  rw [if_neg (by simp)] at hc
  rw [hbk] at hc
  have ha : aset p₁ [i₁, i₂] [(p₁, [i₁, i₂]), (p₂, [i₃])] = [(p₁, [i₁, i₂]), (p₂, [i₃])] := by
    simp [aset]
  rw [ha] at hc
  exact hc

/-- C2: Price-time priority.  Two resting orders at the same price on
the same side and a third at a strictly worse price: a market order on
the opposing side whose volume is below the first order's volume fills
only the first-added order (reducing its volume by exactly the
requested amount), leaves the second and the worse-priced order
untouched, preserves the FIFO queue `[i₁, i₂]` at the best price with
the first-added order still in front, and consumes the best price
level first (lowest ask for a buy, highest bid for a sell). -/
theorem C2 (s : Side) (i₁ i₂ i₃ : Nat) (p₁ p₂ : ℚ) (v₁ v₂ v₃ w t : Int)
    (h12 : i₁ ≠ i₂) (h13 : i₁ ≠ i₃) (h23 : i₂ ≠ i₃)
    (hbetter : if s = Side.sell then p₁ < p₂ else p₂ < p₁)
    (hw : 0 < w) (hwlt : w < v₁) :
    ∃ st',
      match_market
        (add_limit (add_limit (add_limit OrderBook.empty
            { id := i₁, side := s, price := p₁, volume := v₁, start_tick := 0,
              end_tick := none, mm_tag := false })
            { id := i₂, side := s, price := p₁, volume := v₂, start_tick := 0,
              end_tick := none, mm_tag := false })
            { id := i₃, side := s, price := p₂, volume := v₃, start_tick := 0,
              end_tick := none, mm_tag := false })
        (opp s) w t = some (st', w) ∧
      alookup i₁ st'.orders = some
        { id := i₁, side := s, price := p₁, volume := v₁ - w, start_tick := 0,
          end_tick := none, mm_tag := false } ∧
      alookup i₂ st'.orders = some
        { id := i₂, side := s, price := p₁, volume := v₂, start_tick := 0,
          end_tick := none, mm_tag := false } ∧
      alookup i₃ st'.orders = some
        { id := i₃, side := s, price := p₂, volume := v₃, start_tick := 0,
          end_tick := none, mm_tag := false } ∧
      alookup p₁ (sideBook st' s) = some [i₁, i₂] ∧
      alookup p₂ (sideBook st' s) = some [i₃] := by
  cases s with
  | sell =>
    have hlt : p₁ < p₂ := by simpa using hbetter
    have hp : ¬ (p₁ = p₂) := ne_of_lt hlt
    have hbook :
        add_limit (add_limit (add_limit OrderBook.empty
            { id := i₁, side := Side.sell, price := p₁, volume := v₁, start_tick := 0,
              end_tick := none, mm_tag := false })
            { id := i₂, side := Side.sell, price := p₁, volume := v₂, start_tick := 0,
              end_tick := none, mm_tag := false })
            { id := i₃, side := Side.sell, price := p₂, volume := v₃, start_tick := 0,
              end_tick := none, mm_tag := false } =
        { bids := [],
          asks := [(p₁, [i₁, i₂]), (p₂, [i₃])],
          orders := [(i₁,
              { id := i₁, side := Side.sell, price := p₁, volume := v₁, start_tick := 0,
                end_tick := none, mm_tag := false }),
            (i₂,
              { id := i₂, side := Side.sell, price := p₁, volume := v₂, start_tick := 0,
                end_tick := none, mm_tag := false }),
            (i₃,
              { id := i₃, side := Side.sell, price := p₂, volume := v₃, start_tick := 0,
                end_tick := none, mm_tag := false })] } := by
      simp [add_limit, OrderBook.empty, pushLevel, aset, alookup, h12, h13, h23, hp]
    rw [hbook]
    have hbk : bestKey [(p₁, [i₁, i₂]), (p₂, [i₃])] true = p₁ := by
      simp [bestKey, keys]
      exact le_of_lt hlt
    have hcons := C2_consume
      [(i₁,
        { id := i₁, side := Side.sell, price := p₁, volume := v₁, start_tick := 0,
          end_tick := none, mm_tag := false }),
       (i₂,
        { id := i₂, side := Side.sell, price := p₁, volume := v₂, start_tick := 0,
          end_tick := none, mm_tag := false }),
       (i₃,
        { id := i₃, side := Side.sell, price := p₂, volume := v₃, start_tick := 0,
          end_tick := none, mm_tag := false })]
      i₁ i₂ i₃ p₁ p₂
      { id := i₁, side := Side.sell, price := p₁, volume := v₁, start_tick := 0,
        end_tick := none, mm_tag := false }
      w t true hbk hw (by simp [alookup]) hwlt
    refine ⟨{ bids := [],
              asks := [(p₁, [i₁, i₂]), (p₂, [i₃])],
              orders := aset i₁
                { id := i₁, side := Side.sell, price := p₁, volume := v₁ - w, start_tick := 0,
                  end_tick := none, mm_tag := false }
                [(i₁,
                  { id := i₁, side := Side.sell, price := p₁, volume := v₁, start_tick := 0,
                    end_tick := none, mm_tag := false }),
                 (i₂,
                  { id := i₂, side := Side.sell, price := p₁, volume := v₂, start_tick := 0,
                    end_tick := none, mm_tag := false }),
                 (i₃,
                  { id := i₃, side := Side.sell, price := p₂, volume := v₃, start_tick := 0,
                    end_tick := none, mm_tag := false })] }, ?_, ?_, ?_, ?_, ?_, ?_⟩
    · show match_market _ Side.buy w t = _
      simp only [match_market]
      rw [hcons]
    · simp [aset, alookup, h12, h13]
    · simp [aset, alookup, h12, h13, h23]
    · simp [aset, alookup, h12, h13, h23]
    · simp [sideBook, alookup]
    · simp [sideBook, alookup, hp]
  | buy =>
    have hlt : p₂ < p₁ := by simpa using hbetter
    have hp : ¬ (p₁ = p₂) := ne_of_gt hlt
    have hbook :
        add_limit (add_limit (add_limit OrderBook.empty
            { id := i₁, side := Side.buy, price := p₁, volume := v₁, start_tick := 0,
              end_tick := none, mm_tag := false })
            { id := i₂, side := Side.buy, price := p₁, volume := v₂, start_tick := 0,
              end_tick := none, mm_tag := false })
            { id := i₃, side := Side.buy, price := p₂, volume := v₃, start_tick := 0,
              end_tick := none, mm_tag := false } =
        { bids := [(p₁, [i₁, i₂]), (p₂, [i₃])],
          asks := [],
          orders := [(i₁,
              { id := i₁, side := Side.buy, price := p₁, volume := v₁, start_tick := 0,
                end_tick := none, mm_tag := false }),
            (i₂,
              { id := i₂, side := Side.buy, price := p₁, volume := v₂, start_tick := 0,
                end_tick := none, mm_tag := false }),
            (i₃,
              { id := i₃, side := Side.buy, price := p₂, volume := v₃, start_tick := 0,
                end_tick := none, mm_tag := false })] } := by
      simp [add_limit, OrderBook.empty, pushLevel, aset, alookup, h12, h13, h23, hp]
    rw [hbook]
    have hbk : bestKey [(p₁, [i₁, i₂]), (p₂, [i₃])] false = p₁ := by
      simp [bestKey, keys]
      exact le_of_lt hlt
    have hcons := C2_consume
      [(i₁,
        { id := i₁, side := Side.buy, price := p₁, volume := v₁, start_tick := 0,
          end_tick := none, mm_tag := false }),
       (i₂,
        { id := i₂, side := Side.buy, price := p₁, volume := v₂, start_tick := 0,
          end_tick := none, mm_tag := false }),
       (i₃,
        { id := i₃, side := Side.buy, price := p₂, volume := v₃, start_tick := 0,
          end_tick := none, mm_tag := false })]
      i₁ i₂ i₃ p₁ p₂
      { id := i₁, side := Side.buy, price := p₁, volume := v₁, start_tick := 0,
        end_tick := none, mm_tag := false }
      w t false hbk hw (by simp [alookup]) hwlt
    refine ⟨{ bids := [(p₁, [i₁, i₂]), (p₂, [i₃])],
              asks := [],
              orders := aset i₁
                { id := i₁, side := Side.buy, price := p₁, volume := v₁ - w, start_tick := 0,
                  end_tick := none, mm_tag := false }
                [(i₁,
                  { id := i₁, side := Side.buy, price := p₁, volume := v₁, start_tick := 0,
                    end_tick := none, mm_tag := false }),
                 (i₂,
                  { id := i₂, side := Side.buy, price := p₁, volume := v₂, start_tick := 0,
                    end_tick := none, mm_tag := false }),
                 (i₃,
                  { id := i₃, side := Side.buy, price := p₂, volume := v₃, start_tick := 0,
                    end_tick := none, mm_tag := false })] }, ?_, ?_, ?_, ?_, ?_, ?_⟩
    · show match_market _ Side.sell w t = _
      simp only [match_market]
      rw [hcons]
    · simp [aset, alookup, h12, h13]
    · simp [aset, alookup, h12, h13, h23]
    · simp [aset, alookup, h12, h13, h23]
    · simp [sideBook, alookup]
    · simp [sideBook, alookup, hp]

theorem C2_witness :
    ∃ st',
      match_market
        (add_limit (add_limit (add_limit OrderBook.empty
            { id := 1, side := Side.sell, price := 10, volume := 5, start_tick := 0,
              end_tick := none, mm_tag := false })
            { id := 2, side := Side.sell, price := 10, volume := 6, start_tick := 0,
              end_tick := none, mm_tag := false })
            { id := 3, side := Side.sell, price := 11, volume := 7, start_tick := 0,
              end_tick := none, mm_tag := false })
        (opp Side.sell) 2 0 = some (st', 2) ∧
      alookup 1 st'.orders = some
        { id := 1, side := Side.sell, price := 10, volume := 5 - 2, start_tick := 0,
          end_tick := none, mm_tag := false } ∧
      alookup 2 st'.orders = some
        { id := 2, side := Side.sell, price := 10, volume := 6, start_tick := 0,
          end_tick := none, mm_tag := false } ∧
      alookup 3 st'.orders = some
        { id := 3, side := Side.sell, price := 11, volume := 7, start_tick := 0,
          end_tick := none, mm_tag := false } ∧
      alookup 10 (sideBook st' Side.sell) = some [1, 2] ∧
      alookup 11 (sideBook st' Side.sell) = some [3] :=
  C2 Side.sell 1 2 3 10 11 5 6 7 2 0 (by decide) (by decide) (by decide)
    (by norm_num) (by decide) (by decide)

/-- C9: Partial-fill frame property.  Every `match_market` call leaves
the same side of the book untouched; every surviving registry order
existed before with the same id, side, price, start tick, tag and a
still-unset `end_tick`, and is either wholly unchanged or partially
filled in place — positive remaining volume strictly below its
original, still at the front of its price-level queue; at most one
order changes; the surviving queues are suffixes of the original
queues; and a price level all of whose orders kept their registry
entries keeps its exact queue. -/
theorem C9 (st : OrderBook) (side : Side) (vol t : Int) (hwf : WF st) (hv : 0 ≤ vol) :
    ∃ st' f, match_market st side vol t = some (st', f) ∧
      sideBook st' side = sideBook st side ∧
      (∀ k o', alookup k st'.orders = some o' → ∃ o, alookup k st.orders = some o ∧
        o'.id = o.id ∧ o'.side = o.side ∧ o'.price = o.price ∧
        o'.start_tick = o.start_tick ∧ o'.mm_tag = o.mm_tag ∧ o'.end_tick = none ∧
        (o' = o ∨ (0 < o'.volume ∧ o'.volume < o.volume ∧
          ∃ q', alookup o.price (sideBook st' (opp side)) = some q' ∧
            q'.head? = some k))) ∧
      (∀ k₁ k₂, RegChanged st.orders st'.orders k₁ → RegChanged st.orders st'.orders k₂ →
        k₁ = k₂) ∧
      (∀ p q', alookup p (sideBook st' (opp side)) = some q' →
        ∃ q, alookup p (sideBook st (opp side)) = some q ∧ q' <:+ q) ∧
      (∀ p q, alookup p (sideBook st (opp side)) = some q →
        (∀ k ∈ q, alookup k st'.orders = alookup k st.orders) →
        alookup p (sideBook st' (opp side)) = some q) := by
  obtain ⟨st', f, hm, hwf', hsame, bout⟩ := @match_market_spec st side vol t hwf hv
  refine ⟨st', f, hm, hsame, ?_, bout.buniq, bout.blev_suffix, bout.blev_unch⟩
  intro k o' ho'
  obtain ⟨o, ho, hcase⟩ := bout.btri k o' ho'
  obtain ⟨hid, hvolpos, hend, _⟩ := hwf.ordersOK k o ho
  rcases hcase with rfl | ⟨heq, hpos, hlt, q', hq', hhd⟩
  · exact ⟨o', ho, rfl, rfl, rfl, rfl, rfl, hend, Or.inl rfl⟩
  · refine ⟨o, ho, ?_, ?_, ?_, ?_, ?_, ?_, Or.inr ⟨hpos, hlt, q', hq', hhd⟩⟩
    · rw [← heq]
    · rw [← heq]
    · rw [← heq]
    · rw [← heq]
    · rw [← heq]
    · rw [← heq]
      exact hend

theorem C9_witness :
    ∃ st' f, match_market OrderBook.empty Side.buy 5 0 = some (st', f) ∧
      sideBook st' Side.buy = sideBook OrderBook.empty Side.buy ∧
      (∀ k o', alookup k st'.orders = some o' →
        ∃ o, alookup k OrderBook.empty.orders = some o ∧
        o'.id = o.id ∧ o'.side = o.side ∧ o'.price = o.price ∧
        o'.start_tick = o.start_tick ∧ o'.mm_tag = o.mm_tag ∧ o'.end_tick = none ∧
        (o' = o ∨ (0 < o'.volume ∧ o'.volume < o.volume ∧
          ∃ q', alookup o.price (sideBook st' (opp Side.buy)) = some q' ∧
            q'.head? = some k))) ∧
      (∀ k₁ k₂, RegChanged OrderBook.empty.orders st'.orders k₁ →
        RegChanged OrderBook.empty.orders st'.orders k₂ → k₁ = k₂) ∧
      (∀ p q', alookup p (sideBook st' (opp Side.buy)) = some q' →
        ∃ q, alookup p (sideBook OrderBook.empty (opp Side.buy)) = some q ∧ q' <:+ q) ∧
      (∀ p q, alookup p (sideBook OrderBook.empty (opp Side.buy)) = some q →
        (∀ k ∈ q, alookup k st'.orders = alookup k OrderBook.empty.orders) →
        alookup p (sideBook st' (opp Side.buy)) = some q) :=
  C9 OrderBook.empty Side.buy 5 0 WF_empty (by decide)

/-- C10: Market-maker quote freshness.  In every run of the loop from
the empty book (with the constructor-unique id and positive-volume
side conditions the script guarantees), at every tick `n`, after the
stale-quote retraction and the re-quoting steps every
market-maker-tagged order resting in the book carries
`start_tick = n` — no market-maker quote survives a tick boundary,
even though the retraction predicate only matches orders stamped with
the previous tick. -/
theorem C10 (tds : List TickData) (hnd : ((tds.map tickIds).flatten).Nodup)
    (hok : ∀ td ∈ tds, TickOK td) (n : Nat) (hn : n < tds.length) :
    ∃ st₂ st₁, runTicks OrderBook.empty 0 (tds.take n) = some st₂ ∧
      mmRetract st₂ (n : Int) = some st₁ ∧
      ∀ k o, alookup k (mmQuote st₁ (n : Int) (tds.get ⟨n, hn⟩)).orders = some o →
        o.mm_tag = true → o.start_tick = (n : Int) := by
  have hstamp : mmStamp OrderBook.empty (((0 : Nat) : Int) - 1) := by
    intro k o h
    simp [OrderBook.empty, alookup] at h
  have hfresh : ∀ k ∈ (tds.map tickIds).flatten, alookup k OrderBook.empty.orders = none :=
    fun k _ => rfl
  obtain ⟨st₂, st₁, h1, h2, h3⟩ :=
    C10_aux tds OrderBook.empty 0 WF_empty hstamp hnd hok hfresh n hn
  have hc : ((0 : Nat) : Int) + (n : Int) = (n : Int) := by simp
  rw [hc] at h2 h3
  exact ⟨st₂, st₁, h1, h2, h3⟩

def c10td : TickData :=
  { bidPrice := 99, askPrice := 101, bidVol := 5, askVol := 5, bidId := 1, askId := 2,
    events := [], sel := fun _ => false }

theorem C10_witness :
    ∃ st₂ st₁, runTicks OrderBook.empty 0 (List.take 0 [c10td]) = some st₂ ∧
      mmRetract st₂ ((0 : Nat) : Int) = some st₁ ∧
      ∀ k o, alookup k (mmQuote st₁ ((0 : Nat) : Int)
          ([c10td].get ⟨0, by decide⟩)).orders = some o →
        o.mm_tag = true → o.start_tick = ((0 : Nat) : Int) :=
  C10 [c10td] (by decide)
    (by
      intro x hx
      simp only [List.mem_singleton] at hx
      subst hx
      exact ⟨by decide, by decide, fun ev he => absurd he (List.not_mem_nil ev), by decide⟩)
    0 (by decide)

end MarketSim
